import Mathlib

/-!
Verification of the point-tiler pipeline against its specification.

The development shallowly embeds the Rust sources:
- pcd-core/src/pointcloud/point.rs       (Point, PointCloud::new)
- pcd-core/src/pointcloud/decimation/decimator.rs (VoxelDecimator, morton_encode_3d)
- pcd-exporter/src/gltf.rs               (rcp, quantize_unsigned_norm, vertex buffers)
- app/src/main.rs                        (tile codec use, aggregation, export, CLI checks)

Machine floating-point doubles are modelled as rationals; machine i64/u64
integers as Int/Nat with explicit wrapping where the source wraps.
-/

namespace PointTiler

/-- RGB color with 16-bit channels (pcd-core point.rs, struct Color). -/
structure Color where
  r : Nat
  g : Nat
  b : Nat
deriving DecidableEq

/-- Optional per-point attributes (pcd-core point.rs, struct PointAttributes).
The classification string is modelled as its byte sequence. -/
structure PointAttributes where
  intensity : Option Nat
  returnNumber : Option Nat
  classificationBytes : Option (List Nat)
  scannerChannel : Option Nat
  scanAngle : Option ℚ
  userData : Option Nat
  pointSourceId : Option Nat
  gpsTime : Option ℚ
deriving DecidableEq

/-- A point record (pcd-core point.rs, struct Point); f64 coordinates are
modelled as rationals. -/
structure Point where
  x : ℚ
  y : ℚ
  z : ℚ
  color : Color
  attributes : PointAttributes
deriving DecidableEq

/-- Empty attribute set, used to build concrete test points. -/
def noAttributes : PointAttributes :=
  { intensity := none, returnNumber := none, classificationBytes := none,
    scannerChannel := none, scanAngle := none, userData := none,
    pointSourceId := none, gpsTime := none }

/-- A concrete point with white color and no attributes, for witnesses. -/
def mkPoint (x y z : ℚ) : Point :=
  { x := x, y := y, z := z, color := { r := 65535, g := 65535, b := 65535 },
    attributes := noAttributes }

/-! ## Voxel decimator (decimator.rs) -/

/-- Voxel index of a point: floor of each coordinate over the voxel size
(decimator.rs, get_voxel_index). -/
def voxelIndex (voxelSize : ℚ) (p : Point) : ℤ × ℤ × ℤ :=
  (⌊p.x / voxelSize⌋, ⌊p.y / voxelSize⌋, ⌊p.z / voxelSize⌋)

/-- Center of a voxel (decimator.rs, get_voxel_center). -/
def voxelCenter (voxelSize : ℚ) (index : ℤ × ℤ × ℤ) : ℚ × ℚ × ℚ :=
  (((index.1 : ℚ) + 1/2) * voxelSize,
   ((index.2.1 : ℚ) + 1/2) * voxelSize,
   ((index.2.2 : ℚ) + 1/2) * voxelSize)

/-- Squared Euclidean distance from a point to a position
(decimator.rs, squared_distance). -/
def squaredDistance (a : Point) (b : ℚ × ℚ × ℚ) : ℚ :=
  (a.x - b.1) ^ 2 + (a.y - b.2.1) ^ 2 + (a.z - b.2.2) ^ 2

/-- Squared distance of a point to the center of its own voxel. -/
def voxelDist (voxelSize : ℚ) (p : Point) : ℚ :=
  squaredDistance p (voxelCenter voxelSize (voxelIndex voxelSize p))

/-- One entry of the best-point map: voxel index with best (distance, point). -/
abbrev BestEntry := (ℤ × ℤ × ℤ) × (ℚ × Point)

/-- Update the best-point association list at one key, mirroring the
HashMap entry logic of decimate: a vacant key inserts, an occupied key is
replaced only when the new distance is strictly smaller. -/
def updateBest (key : ℤ × ℤ × ℤ) (d : ℚ) (p : Point) :
    List BestEntry → List BestEntry
  | [] => [(key, (d, p))]
  | e :: rest =>
    if e.1 = key then
      (if d < e.2.1 then (e.1, (d, p)) else e) :: rest
    else
      e :: updateBest key d p rest

/-- One step of the decimate loop: insert a point into the best-point map
under its voxel index. -/
def insertPoint (voxelSize : ℚ) (m : List BestEntry) (p : Point) : List BestEntry :=
  updateBest (voxelIndex voxelSize p) (voxelDist voxelSize p) p m

/-- Fold of all points into the best-point map (decimate, first loop).
The HashMap is modelled as an association list in first-insertion order. -/
def bestMap (voxelSize : ℚ) (points : List Point) : List BestEntry :=
  points.foldl (insertPoint voxelSize) []

/-- Bit expansion used by the 3D Morton encoding (decimator.rs, expand_bits).
Every mask is below 2 to the 64, so the natural-number computation agrees
with the wrapping u64 computation of the source. -/
def expandBits (v0 : Nat) : Nat :=
  let v1 := v0 &&& 0x1fffff
  let v2 := (v1 ||| (v1 <<< 32)) &&& 0x1f00000000ffff
  let v3 := (v2 ||| (v2 <<< 16)) &&& 0x1f0000ff0000ff
  let v4 := (v3 ||| (v3 <<< 8)) &&& 0x100f00f00f00f00f
  let v5 := (v4 ||| (v4 <<< 4)) &&& 0x10c30c30c30c30c3
  let v6 := (v5 ||| (v5 <<< 2)) &&& 0x1249249249249249
  v6

/-- Bias a signed voxel index to unsigned: wrapping add of 2 to the 20 then
cast to u64 (decimator.rs, morton_encode_3d). -/
def biasIndex (x : ℤ) : Nat := ((x + 2 ^ 20) % (2 ^ 64 : ℤ)).toNat

/-- Morton encoding of three voxel indices by bit interleaving
(decimator.rs, morton_encode_3d). -/
def mortonEncode3d (x y z : ℤ) : Nat :=
  expandBits (biasIndex x) ||| (expandBits (biasIndex y) <<< 1) |||
    (expandBits (biasIndex z) <<< 2)

/-- Morton code of the voxel containing a point. -/
def mortonOf (voxelSize : ℚ) (p : Point) : Nat :=
  mortonEncode3d (voxelIndex voxelSize p).1 (voxelIndex voxelSize p).2.1
    (voxelIndex voxelSize p).2.2

/-- Comparison on (morton, point) pairs used for the final sort. -/
def mortonLe (a b : Nat × Point) : Bool := a.1 ≤ b.1

/-- Voxel decimation (decimator.rs, VoxelDecimator::decimate): keep the best
point of every occupied voxel, then sort the kept points by the Morton code
of their voxel. The source drains the HashMap in an unspecified iteration
order and sorts unstably, which leaves Morton-tied voxels in unspecified
relative order; this instance fixes the first-insertion order, and
decimateOrdered below makes the iteration order a parameter. -/
def decimate (voxelSize : ℚ) (points : List Point) : List Point :=
  let indexed := (bestMap voxelSize points).map
    (fun e => (mortonEncode3d e.1.1 e.1.2.1 e.1.2.2, e.2.2))
  ((indexed.mergeSort mortonLe).map (fun ip => ip.2))

/-! ## Association-list lemmas for the best-point map -/

/-- Lookup in the best-point association list. -/
def lookupBest (k : ℤ × ℤ × ℤ) : List BestEntry → Option (ℚ × Point)
  | [] => none
  | e :: rest => if e.1 = k then some e.2 else lookupBest k rest

theorem lookupBest_updateBest_self (k : ℤ × ℤ × ℤ) (d : ℚ) (p : Point)
    (m : List BestEntry) :
    lookupBest k (updateBest k d p m) =
      some (match lookupBest k m with
        | none => (d, p)
        | some b => if d < b.1 then (d, p) else b) := by
  induction m with
  | nil => simp [updateBest, lookupBest]
  | cons e rest ih =>
    by_cases hk : e.1 = k
    · by_cases hd : d < e.2.1
      · simp [updateBest, lookupBest, hk, hd]
      · simp [updateBest, lookupBest, hk, hd]
    · simp [updateBest, lookupBest, hk, ih]

theorem lookupBest_updateBest_other (k k0 : ℤ × ℤ × ℤ) (d : ℚ) (p : Point)
    (m : List BestEntry) (hk : k ≠ k0) :
    lookupBest k (updateBest k0 d p m) = lookupBest k m := by
  have hk0 : ¬(k0 = k) := fun h => hk h.symm
  induction m with
  | nil => simp [updateBest, lookupBest, hk0]
  | cons e rest ih =>
    by_cases he : e.1 = k0
    · have hek : ¬(e.1 = k) := fun h => hk0 (he ▸ h)
      by_cases hd : d < e.2.1
      · simp [updateBest, lookupBest, he, hd, hek, hk0]
      · simp [updateBest, lookupBest, he, hd, hek]
    · by_cases hek : e.1 = k
      · simp [updateBest, lookupBest, he, hek, hk]
      · simp [updateBest, lookupBest, he, hek, ih]

theorem lookupBest_eq_none_iff (k : ℤ × ℤ × ℤ) (m : List BestEntry) :
    lookupBest k m = none ↔ k ∉ m.map (fun e => e.1) := by
  induction m with
  | nil => simp [lookupBest]
  | cons e rest ih =>
    by_cases he : e.1 = k
    · simp [lookupBest, he]
    · have hke : ¬(k = e.1) := fun h => he h.symm
      simp [lookupBest, he, hke, ih]

theorem updateBest_of_lookup_none (k : ℤ × ℤ × ℤ) (d : ℚ) (p : Point)
    (m : List BestEntry) (h : lookupBest k m = none) :
    updateBest k d p m = m ++ [(k, (d, p))] := by
  induction m with
  | nil => simp [updateBest]
  | cons e rest ih =>
    simp only [lookupBest] at h
    by_cases he : e.1 = k
    · simp [he] at h
    · simp only [updateBest, he, if_neg, if_false, List.cons_append,
        List.cons.injEq, true_and]
      exact ih (by simpa [he] using h)

theorem keys_updateBest_of_lookup_none (k : ℤ × ℤ × ℤ) (d : ℚ) (p : Point)
    (m : List BestEntry) (h : lookupBest k m = none) :
    (updateBest k d p m).map (fun e => e.1) = m.map (fun e => e.1) ++ [k] := by
  rw [updateBest_of_lookup_none k d p m h]; simp

theorem keys_updateBest_of_lookup_some (k : ℤ × ℤ × ℤ) (d : ℚ) (p : Point)
    (m : List BestEntry) (b : ℚ × Point) (h : lookupBest k m = some b) :
    (updateBest k d p m).map (fun e => e.1) = m.map (fun e => e.1) := by
  induction m with
  | nil => simp [lookupBest] at h
  | cons e rest ih =>
    simp only [lookupBest] at h
    by_cases he : e.1 = k
    · by_cases hd : d < e.2.1 <;> simp [updateBest, he, hd]
    · simp only [updateBest, he, if_neg, if_false, List.map_cons,
        List.cons.injEq, true_and]
      exact ih (by simpa [he] using h)

theorem mem_updateBest (k : ℤ × ℤ × ℤ) (d : ℚ) (p : Point)
    (m : List BestEntry) (e : BestEntry) (h : e ∈ updateBest k d p m) :
    e ∈ m ∨ e = (k, (d, p)) := by
  induction m with
  | nil => simpa [updateBest] using h
  | cons e0 rest ih =>
    by_cases he : e0.1 = k
    · by_cases hd : d < e0.2.1
      · simp only [updateBest, he, hd, if_pos, if_true, List.mem_cons] at h
        rcases h with h | h
        · right; exact h
        · left; exact List.mem_cons_of_mem _ h
      · simp only [updateBest, he, hd, if_pos, if_false, List.mem_cons] at h
        rcases h with h | h
        · left; rw [h]; exact List.mem_cons_self _ _
        · left; exact List.mem_cons_of_mem _ h
    · simp only [updateBest, he, if_neg, if_false, List.mem_cons] at h
      rcases h with h | h
      · left; rw [h]; exact List.mem_cons_self _ _
      · rcases ih h with h | h
        · left; exact List.mem_cons_of_mem _ h
        · right; exact h

theorem lookupBest_mem (k : ℤ × ℤ × ℤ) (m : List BestEntry) (b : ℚ × Point)
    (h : lookupBest k m = some b) : (k, b) ∈ m := by
  induction m with
  | nil => simp [lookupBest] at h
  | cons e rest ih =>
    simp only [lookupBest] at h
    by_cases he : e.1 = k
    · simp only [he, if_pos, if_true, Option.some.injEq] at h
      have hkb : (k, b) = e := by
        obtain ⟨e1, e2⟩ := e
        simp only at he h
        rw [he, h]
      rw [hkb]
      exact List.mem_cons_self _ _
    · exact List.mem_cons_of_mem _ (ih (by simpa [he] using h))

theorem lookupBest_of_mem (m : List BestEntry) (e : BestEntry)
    (hmem : e ∈ m) (hnd : (m.map (fun e => e.1)).Nodup) :
    lookupBest e.1 m = some e.2 := by
  induction m with
  | nil => simp at hmem
  | cons e0 rest ih =>
    simp only [List.map_cons, List.nodup_cons] at hnd
    rcases List.mem_cons.mp hmem with h | h
    · rw [h]; simp [lookupBest]
    · have hne : e0.1 ≠ e.1 := by
        intro heq
        exact hnd.1 (heq ▸ List.mem_map_of_mem (fun e => e.1) h)
      simp only [lookupBest, hne, if_neg, if_false]
      exact ih h hnd.2

/-! ## Per-voxel factorization of the best-point fold -/

/-- The comparison step of the decimate loop for an occupied voxel. -/
def pickBest (s : ℚ) (best : ℚ × Point) (q : Point) : ℚ × Point :=
  if voxelDist s q < best.1 then (voxelDist s q, q) else best

/-- Run of the decimate loop restricted to the points of a single voxel. -/
def mergeRun (s : ℚ) : Option (ℚ × Point) → List Point → Option (ℚ × Point)
  | cur, [] => cur
  | none, q :: rest => mergeRun s (some (voxelDist s q, q)) rest
  | some b, q :: rest => mergeRun s (some (pickBest s b q)) rest

theorem mergeRun_some (s : ℚ) (l : List Point) :
    ∀ b : ℚ × Point, mergeRun s (some b) l = some (l.foldl (pickBest s) b) := by
  induction l with
  | nil => intro b; rfl
  | cons q rest ih => intro b; simpa [mergeRun] using ih (pickBest s b q)

theorem lookupBest_foldl_insert (s : ℚ) (pts : List Point) (k : ℤ × ℤ × ℤ) :
    ∀ m, lookupBest k (pts.foldl (insertPoint s) m) =
      mergeRun s (lookupBest k m)
        (pts.filter (fun p => voxelIndex s p = k)) := by
  induction pts with
  | nil =>
    intro m
    cases h : lookupBest k m <;> simp [mergeRun, h]
  | cons p rest ih =>
    intro m
    simp only [List.foldl_cons, List.filter_cons]
    by_cases hp : voxelIndex s p = k
    · rw [ih, insertPoint, hp, lookupBest_updateBest_self]
      rw [if_pos (by simp)]
      cases hm : lookupBest k m with
      | none => simp [mergeRun, hm]
      | some b => simp [mergeRun, pickBest, hm]
    · rw [ih, insertPoint,
        lookupBest_updateBest_other k (voxelIndex s p) _ _ m
          (fun h => hp h.symm)]
      rw [if_neg (by simp [hp])]

/-- Per-voxel view of the best-point map: the stored entry for voxel k is
the decimate fold over exactly the input points lying in voxel k. -/
theorem lookupBest_bestMap (s : ℚ) (pts : List Point) (k : ℤ × ℤ × ℤ) :
    lookupBest k (bestMap s pts) =
      mergeRun s none (pts.filter (fun p => voxelIndex s p = k)) := by
  rw [bestMap, lookupBest_foldl_insert]
  rfl

/-- The fold over one voxel keeps the earliest point of minimal squared
distance: it either returns the seed untouched (nothing beat it) or a later
element that strictly beat the seed and everything before it, and was not
beaten afterwards. -/
theorem foldl_pickBest_spec (s : ℚ) (l : List Point) :
    ∀ b : ℚ × Point,
      (l.foldl (pickBest s) b = b ∧ ∀ q ∈ l, b.1 ≤ voxelDist s q) ∨
      (∃ l1 l2, l = l1 ++ (l.foldl (pickBest s) b).2 :: l2 ∧
        (l.foldl (pickBest s) b).1 = voxelDist s (l.foldl (pickBest s) b).2 ∧
        (l.foldl (pickBest s) b).1 < b.1 ∧
        (∀ q ∈ l1, (l.foldl (pickBest s) b).1 < voxelDist s q) ∧
        (∀ q ∈ l2, (l.foldl (pickBest s) b).1 ≤ voxelDist s q)) := by
  induction l with
  | nil =>
    intro b
    left
    exact ⟨rfl, by simp⟩
  | cons q rest ih =>
    intro b
    by_cases hq : voxelDist s q < b.1
    · have hstep : (q :: rest).foldl (pickBest s) b =
          rest.foldl (pickBest s) (voxelDist s q, q) := by
        simp [pickBest, hq]
      rw [hstep]
      rcases ih (voxelDist s q, q) with ⟨heq, hall⟩ | ⟨l1, l2, hsplit, hdist, hlt, h1, h2⟩
      · rw [heq]
        right
        exact ⟨[], rest, rfl, rfl, hq, by simp, hall⟩
      · right
        refine ⟨q :: l1, l2, ?_, hdist, lt_trans hlt hq, ?_, h2⟩
        · rw [List.cons_append, ← hsplit]
        · intro q2 hq2
          rcases List.mem_cons.mp hq2 with h | h
          · rw [h]; exact hlt
          · exact h1 q2 h
    · have hstep : (q :: rest).foldl (pickBest s) b =
          rest.foldl (pickBest s) b := by
        simp [pickBest, hq]
      rw [hstep]
      rcases ih b with ⟨heq, hall⟩ | ⟨l1, l2, hsplit, hdist, hlt, h1, h2⟩
      · left
        refine ⟨heq, ?_⟩
        intro q2 hq2
        rcases List.mem_cons.mp hq2 with h | h
        · rw [h]; exact le_of_not_lt hq
        · exact hall q2 h
      · right
        refine ⟨q :: l1, l2, ?_, hdist, hlt, ?_, h2⟩
        · rw [List.cons_append, ← hsplit]
        · intro q2 hq2
          rcases List.mem_cons.mp hq2 with h | h
          · rw [h]; exact lt_of_lt_of_le hlt (le_of_not_lt hq)
          · exact h1 q2 h

/-- What the stored entry of a voxel looks like: the earliest input point of
that voxel achieving the minimal squared distance to the voxel center. -/
theorem mergeRun_none_spec (s : ℚ) (g : List Point) (d : ℚ) (p : Point)
    (h : mergeRun s none g = some (d, p)) :
    d = voxelDist s p ∧
      ∃ l1 l2, g = l1 ++ p :: l2 ∧
        (∀ q ∈ l1, d < voxelDist s q) ∧
        (∀ q ∈ l2, d ≤ voxelDist s q) := by
  cases g with
  | nil => simp [mergeRun] at h
  | cons p0 rest =>
    rw [mergeRun, mergeRun_some] at h
    have h2 := foldl_pickBest_spec s rest (voxelDist s p0, p0)
    rcases h2 with ⟨heq, hall⟩ | ⟨l1, l2, hsplit, hdist, hlt, h1, h2⟩
    · rw [heq] at h
      have hd : d = voxelDist s p0 ∧ p = p0 := by
        have := Option.some.inj h
        exact ⟨congrArg Prod.fst this.symm, congrArg Prod.snd this.symm⟩
      refine ⟨hd.1 ▸ hd.2 ▸ rfl, [], rest, by rw [hd.2]; rfl, by simp, ?_⟩
      intro q hq
      rw [hd.1]
      exact hall q hq
    · set r := rest.foldl (pickBest s) (voxelDist s p0, p0) with hr
      have hdp : d = r.1 ∧ p = r.2 := by
        have := Option.some.inj h
        exact ⟨congrArg Prod.fst this.symm, congrArg Prod.snd this.symm⟩
      refine ⟨by rw [hdp.1, hdp.2]; exact hdist, p0 :: l1, l2, ?_, ?_, ?_⟩
      · rw [hsplit, hdp.2]; rfl
      · intro q hq
        rcases List.mem_cons.mp hq with hh | hh
        · rw [hh, hdp.1]; exact hlt
        · rw [hdp.1]; exact h1 q hh
      · intro q hq
        rw [hdp.1]
        exact h2 q hq

/-! ## Global invariants of the best-point map -/

theorem lookupBest_append (k : ℤ × ℤ × ℤ) (m m2 : List BestEntry) :
    lookupBest k (m ++ m2) =
      match lookupBest k m with
      | some v => some v
      | none => lookupBest k m2 := by
  induction m with
  | nil => simp [lookupBest]
  | cons e rest ih =>
    by_cases he : e.1 = k <;> simp [lookupBest, he, ih]

theorem bestMap_entry_inv (s : ℚ) (pts : List Point) :
    ∀ m, ∀ e ∈ pts.foldl (insertPoint s) m,
      (e.1 = voxelIndex s e.2.2 ∧ e.2.1 = voxelDist s e.2.2 ∧ e.2.2 ∈ pts) ∨
        e ∈ m := by
  induction pts with
  | nil => intro m e he; right; exact he
  | cons p rest ih =>
    intro m e he
    rw [List.foldl_cons] at he
    rcases ih (insertPoint s m p) e he with ⟨h1, h2, h3⟩ | hmem
    · exact Or.inl ⟨h1, h2, List.mem_cons_of_mem _ h3⟩
    · rcases mem_updateBest _ _ _ _ _ hmem with hm | heq
      · exact Or.inr hm
      · left
        rw [heq]
        exact ⟨rfl, rfl, List.mem_cons_self _ _⟩

/-- Every entry of the best-point map stores its own voxel index, the squared
distance of its point, and a point drawn from the input. -/
theorem bestMap_mem_inv (s : ℚ) (pts : List Point) (e : BestEntry)
    (he : e ∈ bestMap s pts) :
    e.1 = voxelIndex s e.2.2 ∧ e.2.1 = voxelDist s e.2.2 ∧ e.2.2 ∈ pts := by
  rcases bestMap_entry_inv s pts [] e he with h | h
  · exact h
  · simp at h

theorem keys_foldl_nodup (s : ℚ) (pts : List Point) :
    ∀ m, ((m.map (fun e => e.1)).Nodup) →
      (((pts.foldl (insertPoint s) m).map (fun e => e.1)).Nodup) := by
  induction pts with
  | nil => intro m hm; exact hm
  | cons p rest ih =>
    intro m hm
    rw [List.foldl_cons]
    apply ih
    cases hl : lookupBest (voxelIndex s p) m with
    | none =>
      rw [insertPoint, keys_updateBest_of_lookup_none _ _ _ _ hl]
      have hnotin := (lookupBest_eq_none_iff _ m).mp hl
      simp only [List.nodup_append, List.nodup_cons, List.nodup_nil]
      exact ⟨hm, ⟨by simp, trivial⟩, by simpa using hnotin⟩
    | some b =>
      rw [insertPoint, keys_updateBest_of_lookup_some _ _ _ _ _ hl]
      exact hm

/-- The voxel keys of the best-point map are pairwise distinct. -/
theorem bestMap_keys_nodup (s : ℚ) (pts : List Point) :
    ((bestMap s pts).map (fun e => e.1)).Nodup :=
  keys_foldl_nodup s pts [] (by simp)

/-- The (morton, point) list built from the best-point map before sorting. -/
def indexedBest (s : ℚ) (pts : List Point) : List (Nat × Point) :=
  (bestMap s pts).map (fun e => (mortonEncode3d e.1.1 e.1.2.1 e.1.2.2, e.2.2))

theorem decimate_eq (s : ℚ) (pts : List Point) :
    decimate s pts = ((indexedBest s pts).mergeSort mortonLe).map
      (fun ip => ip.2) := rfl

theorem indexedBest_fst (s : ℚ) (pts : List Point) (ip : Nat × Point)
    (h : ip ∈ indexedBest s pts) : ip.1 = mortonOf s ip.2 ∧ ip.2 ∈ pts := by
  rcases List.mem_map.mp h with ⟨e, he, heq⟩
  have hinv := bestMap_mem_inv s pts e he
  constructor
  · rw [← heq]
    simp only [mortonOf, ← hinv.1]
  · rw [← heq]
    exact hinv.2.2

theorem mortonLe_trans (a b c : Nat × Point) (h1 : mortonLe a b = true)
    (h2 : mortonLe b c = true) : mortonLe a c = true := by
  simp only [mortonLe, decide_eq_true_eq] at h1 h2 ⊢
  exact le_trans h1 h2

theorem mortonLe_total (a b : Nat × Point) :
    (mortonLe a b || mortonLe b a) = true := by
  simp only [mortonLe, Bool.or_eq_true, decide_eq_true_eq]
  exact le_total a.1 b.1

/-- Membership in the decimate output, characterized by the best-point map. -/
theorem mem_decimate_iff (s : ℚ) (pts : List Point) (p : Point) :
    p ∈ decimate s pts ↔ ∃ e ∈ bestMap s pts, e.2.2 = p := by
  rw [decimate_eq]
  constructor
  · intro h
    rcases List.mem_map.mp h with ⟨ip, hip, heq⟩
    have hip2 : ip ∈ indexedBest s pts :=
      (List.mergeSort_perm (indexedBest s pts) mortonLe).mem_iff.mp hip
    rcases List.mem_map.mp hip2 with ⟨e, he, heq2⟩
    exact ⟨e, he, by rw [← heq, ← heq2]⟩
  · intro ⟨e, he, heq⟩
    apply List.mem_map.mpr
    refine ⟨(mortonEncode3d e.1.1 e.1.2.1 e.1.2.2, e.2.2), ?_, heq⟩
    apply (List.mergeSort_perm (indexedBest s pts) mortonLe).mem_iff.mpr
    exact List.mem_map.mpr ⟨e, he, rfl⟩

/-- The decimate output has pairwise distinct voxel indices. -/
theorem decimate_pairwise_voxel (s : ℚ) (pts : List Point) :
    (decimate s pts).Pairwise
      (fun p q => voxelIndex s p ≠ voxelIndex s q) := by
  rw [decimate_eq, List.pairwise_map]
  have hperm := List.mergeSort_perm (indexedBest s pts) mortonLe
  have hsym : ∀ {a b : Nat × Point},
      voxelIndex s a.2 ≠ voxelIndex s b.2 → voxelIndex s b.2 ≠ voxelIndex s a.2 :=
    fun h => h.symm
  apply (hperm.pairwise_iff hsym).mpr
  rw [indexedBest, List.pairwise_map]
  have hkeys := bestMap_keys_nodup s pts
  rw [List.Nodup, List.pairwise_map] at hkeys
  apply hkeys.imp_of_mem
  intro e e2 he he2 hne
  have h1 := bestMap_mem_inv s pts e he
  have h2 := bestMap_mem_inv s pts e2 he2
  simpa only [← h1.1, ← h2.1] using hne

/-- The decimate output is sorted by the Morton code of its voxels. -/
theorem decimate_sorted_morton (s : ℚ) (pts : List Point) :
    (decimate s pts).Pairwise
      (fun p q => mortonOf s p ≤ mortonOf s q) := by
  rw [decimate_eq, List.pairwise_map]
  have hsorted := List.sorted_mergeSort mortonLe_trans mortonLe_total
    (indexedBest s pts)
  have hmem : ∀ ip ∈ (indexedBest s pts).mergeSort mortonLe,
      ip.1 = mortonOf s ip.2 := by
    intro ip hip
    exact (indexedBest_fst s pts ip
      ((List.mergeSort_perm (indexedBest s pts) mortonLe).mem_iff.mp hip)).1
  apply hsorted.imp_of_mem
  intro a b ha hb hle
  rw [← hmem a ha, ← hmem b hb]
  simpa [mortonLe] using hle

/-! ## Decimating an already-decimated list -/

theorem foldl_insert_of_pairwise (s : ℚ) (l : List Point) :
    ∀ m, (∀ p ∈ l, lookupBest (voxelIndex s p) m = none) →
      l.Pairwise (fun p q => voxelIndex s p ≠ voxelIndex s q) →
      l.foldl (insertPoint s) m =
        m ++ l.map (fun p => (voxelIndex s p, (voxelDist s p, p))) := by
  induction l with
  | nil => intro m _ _; simp
  | cons p rest ih =>
    intro m hnone hpw
    rw [List.pairwise_cons] at hpw
    rw [List.foldl_cons, insertPoint,
      updateBest_of_lookup_none _ _ _ _ (hnone p (List.mem_cons_self _ _))]
    have hrest : ∀ q ∈ rest,
        lookupBest (voxelIndex s q)
          (m ++ [(voxelIndex s p, (voxelDist s p, p))]) = none := by
      intro q hq
      rw [lookupBest_append, hnone q (List.mem_cons_of_mem _ hq)]
      have hne : ¬(voxelIndex s p = voxelIndex s q) := hpw.1 q hq
      simp [lookupBest, hne]
    rw [ih _ hrest hpw.2]
    simp

theorem bestMap_of_pairwise (s : ℚ) (l : List Point)
    (h : l.Pairwise (fun p q => voxelIndex s p ≠ voxelIndex s q)) :
    bestMap s l = l.map (fun p => (voxelIndex s p, (voxelDist s p, p))) := by
  rw [bestMap, foldl_insert_of_pairwise s l [] (fun q _ => rfl) h]
  exact List.nil_append _

/-- Decimation acts as the identity on a list whose points occupy pairwise
distinct voxels and which is already sorted by voxel Morton code. -/
theorem decimate_of_pairwise_sorted (s : ℚ) (l : List Point)
    (hpw : l.Pairwise (fun p q => voxelIndex s p ≠ voxelIndex s q))
    (hsort : l.Pairwise (fun p q => mortonOf s p ≤ mortonOf s q)) :
    decimate s l = l := by
  rw [decimate_eq, indexedBest, bestMap_of_pairwise s l hpw, List.map_map]
  have hcomp : ((fun e : BestEntry =>
      (mortonEncode3d e.1.1 e.1.2.1 e.1.2.2, e.2.2)) ∘
      (fun p => (voxelIndex s p, (voxelDist s p, p)))) =
      fun p => (mortonOf s p, p) := rfl
  rw [hcomp]
  have hs : List.Pairwise (fun a b : Nat × Point => mortonLe a b = true)
      (l.map (fun p => (mortonOf s p, p))) := by
    rw [List.pairwise_map]
    exact hsort.imp (fun h => by simpa [mortonLe] using h)
  rw [List.mergeSort_of_sorted hs, List.map_map]
  have hid : ((fun ip : Nat × Point => ip.2) ∘ fun p => (mortonOf s p, p)) =
      id := rfl
  rw [hid, List.map_id]

/-! ## Claims C3, C4, C6: the voxel decimator -/

/-- C3: voxel decimation keeps at most one point per voxel index
(floor of coordinate over voxel size); the kept point of each voxel is the
input point with minimal squared distance to the voxel center, ties resolved
in favor of the earlier point in input order; and the output size is at
most the number of distinct voxel indices of the input. -/
theorem C3_decimate_per_voxel (s : ℚ) (pts : List Point) (h : 0 < s) :
    (decimate s pts).Pairwise
      (fun p q => voxelIndex s p ≠ voxelIndex s q) ∧
    (∀ p ∈ decimate s pts,
      ∃ l1 l2,
        pts.filter (fun q => voxelIndex s q = voxelIndex s p) =
          l1 ++ p :: l2 ∧
        (∀ q ∈ l1, squaredDistance p (voxelCenter s (voxelIndex s p)) <
          squaredDistance q (voxelCenter s (voxelIndex s p))) ∧
        (∀ q ∈ l2, squaredDistance p (voxelCenter s (voxelIndex s p)) ≤
          squaredDistance q (voxelCenter s (voxelIndex s p)))) ∧
    (decimate s pts).length ≤ ((pts.map (voxelIndex s)).dedup).length := by
  refine ⟨decimate_pairwise_voxel s pts, ?_, ?_⟩
  · intro p hp
    rcases (mem_decimate_iff s pts p).mp hp with ⟨e, he, hep⟩
    have hinv := bestMap_mem_inv s pts e he
    have hlook := lookupBest_of_mem (bestMap s pts) e he
      (bestMap_keys_nodup s pts)
    have he2 : e.2 = (voxelDist s p, p) := by
      obtain ⟨ek, ed, eq⟩ := e
      simp only at hep hinv
      rw [hep] at hinv ⊢
      rw [hinv.2.1]
    rw [he2, hinv.1, hep] at hlook
    rw [lookupBest_bestMap] at hlook
    rcases mergeRun_none_spec s _ _ _ hlook with ⟨_, l1, l2, hsplit, h1, h2⟩
    refine ⟨l1, l2, hsplit, ?_, ?_⟩
    · intro q hq
      have hqg : q ∈ pts.filter
          (fun q => voxelIndex s q = voxelIndex s p) := by
        rw [hsplit]
        exact List.mem_append_left _ hq
      have hqv : voxelIndex s q = voxelIndex s p := by
        simpa using (List.mem_filter.mp hqg).2
      have := h1 q hq
      rw [voxelDist, voxelDist, hqv] at this
      exact this
    · intro q hq
      have hqg : q ∈ pts.filter
          (fun q => voxelIndex s q = voxelIndex s p) := by
        rw [hsplit]
        exact List.mem_append_right _ (List.mem_cons_of_mem _ hq)
      have hqv : voxelIndex s q = voxelIndex s p := by
        simpa using (List.mem_filter.mp hqg).2
      have := h2 q hq
      rw [voxelDist, voxelDist, hqv] at this
      exact this
  · have hlen : (decimate s pts).length = (bestMap s pts).length := by
      rw [decimate_eq, List.length_map,
        (List.mergeSort_perm (indexedBest s pts) mortonLe).length_eq,
        indexedBest, List.length_map]
    rw [hlen]
    have hkeys : (bestMap s pts).length =
        ((bestMap s pts).map (fun e => e.1)).length := by
      rw [List.length_map]
    rw [hkeys]
    have hnd := bestMap_keys_nodup s pts
    have hsub : ((bestMap s pts).map (fun e => e.1)).toFinset ⊆
        (pts.map (voxelIndex s)).toFinset := by
      intro k hk
      rw [List.mem_toFinset] at hk ⊢
      rcases List.mem_map.mp hk with ⟨e, he, heq⟩
      have hinv := bestMap_mem_inv s pts e he
      exact List.mem_map.mpr ⟨e.2.2, hinv.2.2, by rw [← hinv.1, heq]⟩
    calc ((bestMap s pts).map (fun e => e.1)).length
        = ((bestMap s pts).map (fun e => e.1)).toFinset.card :=
          (List.toFinset_card_of_nodup hnd).symm
      _ ≤ (pts.map (voxelIndex s)).toFinset.card := Finset.card_le_card hsub
      _ = ((pts.map (voxelIndex s)).dedup).length :=
          List.card_toFinset _

/-- Witness for C3 at a concrete input: two points in the same voxel,
voxel size 1. -/
theorem C3_decimate_per_voxel_witness :
    (0:ℚ) < 1 ∧
    ((decimate 1 [mkPoint 0 0 0, mkPoint (1/4) 0 0]).Pairwise
      (fun p q => voxelIndex 1 p ≠ voxelIndex 1 q) ∧
    (∀ p ∈ decimate 1 [mkPoint 0 0 0, mkPoint (1/4) 0 0],
      ∃ l1 l2,
        ([mkPoint 0 0 0, mkPoint (1/4) 0 0]).filter
            (fun q => voxelIndex 1 q = voxelIndex 1 p) =
          l1 ++ p :: l2 ∧
        (∀ q ∈ l1, squaredDistance p (voxelCenter 1 (voxelIndex 1 p)) <
          squaredDistance q (voxelCenter 1 (voxelIndex 1 p))) ∧
        (∀ q ∈ l2, squaredDistance p (voxelCenter 1 (voxelIndex 1 p)) ≤
          squaredDistance q (voxelCenter 1 (voxelIndex 1 p)))) ∧
    (decimate 1 [mkPoint 0 0 0, mkPoint (1/4) 0 0]).length ≤
      (([mkPoint 0 0 0, mkPoint (1/4) 0 0]).map (voxelIndex 1)).dedup.length) :=
  ⟨zero_lt_one, C3_decimate_per_voxel 1 [mkPoint 0 0 0, mkPoint (1/4) 0 0]
    zero_lt_one⟩

/-- Decimation with the HashMap iteration order explicit: the source's
decimate drains best_points with into_iter (an unspecified, seed-dependent
order, modelled by any permutation of the association list) and sorts with
sort_unstable_by_key; a stable mergeSort applied to the reordered entries
realizes exactly the freedom the unstable sort has among equal Morton
keys. The deterministic decimate is the identity-order instance. -/
def decimateOrdered (s : ℚ) (order : List BestEntry → List BestEntry)
    (pts : List Point) : List Point :=
  (((order (bestMap s pts)).map
    (fun e => (mortonEncode3d e.1.1 e.1.2.1 e.1.2.2, e.2.2))).mergeSort
      mortonLe).map (fun ip => ip.2)

theorem decimateOrdered_id (s : ℚ) (pts : List Point) :
    decimateOrdered s (fun m => m) pts = decimate s pts := rfl

/-- Distinct voxel indices can share a Morton code: the bias-and-mask keeps
only 21 bits per axis, so indices congruent modulo 2 to the 21 collide. -/
theorem mortonEncode3d_collision :
    mortonEncode3d 2097152 0 0 = mortonEncode3d 0 0 0 := by decide

theorem voxelIndex_tied_point :
    voxelIndex 1 (mkPoint 2097152 0 0) = ((2097152:ℤ), (0:ℤ), (0:ℤ)) := by
  norm_num [voxelIndex, mkPoint, Prod.mk.injEq]

theorem bestMap_morton_tied :
    bestMap 1 [mkPoint 0 0 0, mkPoint 2097152 0 0] =
    [(((0:ℤ), (0:ℤ), (0:ℤ)),
        (voxelDist 1 (mkPoint 0 0 0), mkPoint 0 0 0)),
     (((2097152:ℤ), (0:ℤ), (0:ℤ)),
        (voxelDist 1 (mkPoint 2097152 0 0), mkPoint 2097152 0 0))] := by
  have hv1 : voxelIndex 1 (mkPoint 0 0 0) = ((0:ℤ), (0:ℤ), (0:ℤ)) := by
    norm_num [voxelIndex, mkPoint, Prod.mk.injEq]
  simp [bestMap, insertPoint, updateBest, hv1, voxelIndex_tied_point]
  decide

theorem decimateOrdered_tied_id :
    decimateOrdered 1 (fun m => m) [mkPoint 0 0 0, mkPoint 2097152 0 0] =
    [mkPoint 0 0 0, mkPoint 2097152 0 0] := by
  simp only [decimateOrdered, bestMap_morton_tied, List.map_cons,
    List.map_nil, mortonEncode3d_collision]
  have hsorted : List.Pairwise (fun a b => mortonLe a b = true)
      [(mortonEncode3d 0 0 0, mkPoint 0 0 0),
       (mortonEncode3d 0 0 0, mkPoint 2097152 0 0)] := by
    simp [mortonLe]
  rw [List.mergeSort_of_sorted hsorted]
  simp

theorem decimateOrdered_tied_reverse :
    decimateOrdered 1 List.reverse [mkPoint 0 0 0, mkPoint 2097152 0 0] =
    [mkPoint 2097152 0 0, mkPoint 0 0 0] := by
  simp only [decimateOrdered, bestMap_morton_tied, List.reverse_cons,
    List.reverse_nil, List.nil_append, List.cons_append, List.map_cons,
    List.map_nil, mortonEncode3d_collision]
  have hsorted : List.Pairwise (fun a b => mortonLe a b = true)
      [(mortonEncode3d 0 0 0, mkPoint 2097152 0 0),
       (mortonEncode3d 0 0 0, mkPoint 0 0 0)] := by
    simp [mortonLe]
  rw [List.mergeSort_of_sorted hsorted]
  simp

/-- C4, counterexample: exact-list idempotence fails for admissible
executions of the source. The voxels (0,0,0) and (2097152,0,0) of the two
input points collide to one Morton code (first conjunct), the reversed
entry order is a permutation of the best-point map and hence an iteration
order the seed-randomized HashMap may produce (second conjunct), and
re-decimating the first output under that order returns the tied points in
the opposite order, so the lists differ (third conjunct). -/
theorem C4_decimate_idempotent_counterexample :
    mortonEncode3d 2097152 0 0 = mortonEncode3d 0 0 0 ∧
    (List.reverse (bestMap 1 [mkPoint 0 0 0, mkPoint 2097152 0 0])).Perm
      (bestMap 1 [mkPoint 0 0 0, mkPoint 2097152 0 0]) ∧
    decimateOrdered 1 List.reverse
        (decimateOrdered 1 (fun m => m)
          [mkPoint 0 0 0, mkPoint 2097152 0 0]) ≠
      decimateOrdered 1 (fun m => m)
        [mkPoint 0 0 0, mkPoint 2097152 0 0] := by
  refine ⟨mortonEncode3d_collision, List.reverse_perm _, ?_⟩
  rw [decimateOrdered_tied_id, decimateOrdered_tied_reverse]
  intro hc
  injection hc with hhead _
  have hx := congrArg Point.x hhead
  norm_num [mkPoint] at hx

/-- The entries of the best-point map hold pairwise distinct voxels. -/
theorem bestMap_pairwise_voxel (s : ℚ) (pts : List Point) :
    (bestMap s pts).Pairwise
      (fun e e2 => voxelIndex s e.2.2 ≠ voxelIndex s e2.2.2) := by
  have hkeys := bestMap_keys_nodup s pts
  rw [List.Nodup, List.pairwise_map] at hkeys
  apply hkeys.imp_of_mem
  intro e e2 he he2 hne
  have h1 := bestMap_mem_inv s pts e he
  have h2 := bestMap_mem_inv s pts e2 he2
  simpa only [← h1.1, ← h2.1] using hne

/-- Under every iteration order, the decimator output still has pairwise
distinct voxel indices. -/
theorem decimateOrdered_pairwise_voxel (s : ℚ)
    (ord : List BestEntry → List BestEntry)
    (hord : ∀ m, (ord m).Perm m) (pts : List Point) :
    (decimateOrdered s ord pts).Pairwise
      (fun p q => voxelIndex s p ≠ voxelIndex s q) := by
  rw [decimateOrdered, List.pairwise_map]
  have hperm := List.mergeSort_perm ((ord (bestMap s pts)).map
    (fun e => (mortonEncode3d e.1.1 e.1.2.1 e.1.2.2, e.2.2))) mortonLe
  have hsym : ∀ {a b : Nat × Point},
      voxelIndex s a.2 ≠ voxelIndex s b.2 →
        voxelIndex s b.2 ≠ voxelIndex s a.2 :=
    fun h => h.symm
  apply (hperm.pairwise_iff hsym).mpr
  rw [List.pairwise_map]
  have hsym2 : ∀ {a b : BestEntry},
      voxelIndex s a.2.2 ≠ voxelIndex s b.2.2 →
        voxelIndex s b.2.2 ≠ voxelIndex s a.2.2 :=
    fun h => h.symm
  apply ((hord (bestMap s pts)).pairwise_iff hsym2).mpr
  exact bestMap_pairwise_voxel s pts

/-- C4, amended: voxel decimation is idempotent up to the order of
Morton-tied voxels: for every voxel size s greater than zero and every
admissible HashMap iteration order of each pass (any permutation of the
best-point entries), re-decimating an already-decimated list returns a
permutation of it. Exact list equality is not guaranteed by the program,
because distinct voxel indices congruent modulo 2 to the 21 share a Morton
code and the unstable sort fixes no order among them. -/
theorem C4_decimate_idempotent_perm (s : ℚ) (pts : List Point) (h : 0 < s)
    (ord1 ord2 : List BestEntry → List BestEntry)
    (h1 : ∀ m, (ord1 m).Perm m) (h2 : ∀ m, (ord2 m).Perm m) :
    (decimateOrdered s ord2 (decimateOrdered s ord1 pts)).Perm
      (decimateOrdered s ord1 pts) := by
  have hpw := decimateOrdered_pairwise_voxel s ord1 h1 pts
  have hbm2 := bestMap_of_pairwise s _ hpw
  have c1 : (((ord2 (bestMap s (decimateOrdered s ord1 pts))).map
      (fun e => (mortonEncode3d e.1.1 e.1.2.1 e.1.2.2, e.2.2))).mergeSort
        mortonLe).Perm
      ((ord2 (bestMap s (decimateOrdered s ord1 pts))).map
        (fun e => (mortonEncode3d e.1.1 e.1.2.1 e.1.2.2, e.2.2))) :=
    List.mergeSort_perm _ _
  have c2 : ((ord2 (bestMap s (decimateOrdered s ord1 pts))).map
      (fun e => (mortonEncode3d e.1.1 e.1.2.1 e.1.2.2, e.2.2))).Perm
      ((bestMap s (decimateOrdered s ord1 pts)).map
        (fun e => (mortonEncode3d e.1.1 e.1.2.1 e.1.2.2, e.2.2))) :=
    (h2 _).map _
  have c3 : ((bestMap s (decimateOrdered s ord1 pts)).map
      (fun e => (mortonEncode3d e.1.1 e.1.2.1 e.1.2.2, e.2.2))) =
      (decimateOrdered s ord1 pts).map (fun p => (mortonOf s p, p)) := by
    rw [hbm2, List.map_map]
    rfl
  have c4 := (c1.trans c2).map (fun ip : Nat × Point => ip.2)
  rw [c3] at c4
  have hid : ((fun ip : Nat × Point => ip.2) ∘ fun p => (mortonOf s p, p)) =
      id := rfl
  rw [List.map_map, hid, List.map_id] at c4
  exact c4

/-- Witness for the amended C4 at the Morton-tied input, with the identity
iteration order on the first pass and the reversed order on the second. -/
theorem C4_decimate_idempotent_perm_witness :
    (0:ℚ) < 1 ∧
    (decimateOrdered 1 List.reverse
        (decimateOrdered 1 (fun m => m)
          [mkPoint 0 0 0, mkPoint 2097152 0 0])).Perm
      (decimateOrdered 1 (fun m => m)
        [mkPoint 0 0 0, mkPoint 2097152 0 0]) :=
  ⟨zero_lt_one,
    C4_decimate_idempotent_perm 1 [mkPoint 0 0 0, mkPoint 2097152 0 0]
      zero_lt_one (fun m => m) List.reverse
      (fun m => List.Perm.refl m) (fun m => List.reverse_perm m)⟩

/-- C6: the decimator output is sorted by the 3D Morton code of each point
voxel index, the Morton code being the bit interleave of the three indices
(21 bits per axis) after biasing each index to unsigned by adding 2 to
the 20; this holds for every input order. -/
theorem C6_decimate_morton_sorted (s : ℚ) (pts : List Point) :
    (decimate s pts).Pairwise
      (fun p q =>
        mortonEncode3d (voxelIndex s p).1 (voxelIndex s p).2.1
            (voxelIndex s p).2.2 ≤
          mortonEncode3d (voxelIndex s q).1 (voxelIndex s q).2.1
            (voxelIndex s q).2.2) :=
  decimate_sorted_morton s pts

/-! ## Claim C7: quadtree aggregation (app/src/main.rs, aggregate_zoom_level) -/

/-- A tile key (z, x, y). -/
abbrev TileCoord := Nat × Nat × Nat

/-- Parent tile coordinates of a child file at level z+1
(main.rs, aggregate_zoom_level: (z, cx / 2, cy / 2)). -/
def parentCoords (z : Nat) (child : TileCoord) : TileCoord :=
  (z, child.2.1 / 2, child.2.2 / 2)

/-- Append points to the entry of a parent key; models the HashMap
entry-or-default-append of aggregate_zoom_level on an association list. -/
def addToParent (key : TileCoord) (pts : List Point) :
    List (TileCoord × List Point) → List (TileCoord × List Point)
  | [] => [(key, pts)]
  | e :: rest =>
    if e.1 = key then (e.1, e.2 ++ pts) :: rest
    else e :: addToParent key pts rest

/-- aggregate_zoom_level (main.rs): fold every child tile file of level z+1
into the bucket of its parent at level z. The parallel fold/reduce of the
source is modelled as a left fold; the per-parent point multiset does not
depend on that order. -/
def aggregateZoomLevel (z : Nat)
    (childFiles : List (TileCoord × List Point)) :
    List (TileCoord × List Point) :=
  childFiles.foldl (fun m cf => addToParent (parentCoords z cf.1) cf.2 m) []

/-- Association lookup for parent buckets. -/
def lookupTile (k : TileCoord) : List (TileCoord × List Point) →
    Option (List Point)
  | [] => none
  | e :: rest => if e.1 = k then some e.2 else lookupTile k rest

theorem lookupTile_addToParent_self (k : TileCoord) (pts : List Point)
    (m : List (TileCoord × List Point)) :
    lookupTile k (addToParent k pts m) =
      some ((lookupTile k m).getD [] ++ pts) := by
  induction m with
  | nil => simp [addToParent, lookupTile]
  | cons e rest ih =>
    by_cases he : e.1 = k
    · simp [addToParent, lookupTile, he]
    · simp [addToParent, lookupTile, he, ih]

theorem lookupTile_addToParent_other (k k0 : TileCoord) (pts : List Point)
    (m : List (TileCoord × List Point)) (hk : k ≠ k0) :
    lookupTile k (addToParent k0 pts m) = lookupTile k m := by
  have hk0 : ¬(k0 = k) := fun h => hk h.symm
  induction m with
  | nil => simp [addToParent, lookupTile, hk0]
  | cons e rest ih =>
    by_cases he : e.1 = k0
    · have hek : ¬(e.1 = k) := fun h => hk0 (he ▸ h)
      simp [addToParent, lookupTile, he, hek, hk0]
    · by_cases hek : e.1 = k
      · simp [addToParent, lookupTile, he, hek, hk]
      · simp [addToParent, lookupTile, he, hek, ih]

theorem lookupTile_eq_none_iff (k : TileCoord)
    (m : List (TileCoord × List Point)) :
    lookupTile k m = none ↔ k ∉ m.map (fun e => e.1) := by
  induction m with
  | nil => simp [lookupTile]
  | cons e rest ih =>
    by_cases he : e.1 = k
    · simp [lookupTile, he]
    · have hke : ¬(k = e.1) := fun h => he h.symm
      simp [lookupTile, he, hke, ih]

theorem keys_addToParent_none (k : TileCoord) (pts : List Point)
    (m : List (TileCoord × List Point)) (h : lookupTile k m = none) :
    (addToParent k pts m).map (fun e => e.1) = m.map (fun e => e.1) ++ [k] := by
  induction m with
  | nil => simp [addToParent]
  | cons e rest ih =>
    simp only [lookupTile] at h
    by_cases he : e.1 = k
    · simp [he] at h
    · simp only [addToParent, he, if_neg, if_false, List.map_cons,
        List.cons_append, List.cons.injEq, true_and]
      exact ih (by simpa [he] using h)

theorem keys_addToParent_some (k : TileCoord) (pts v : List Point)
    (m : List (TileCoord × List Point)) (h : lookupTile k m = some v) :
    (addToParent k pts m).map (fun e => e.1) = m.map (fun e => e.1) := by
  induction m with
  | nil => simp [lookupTile] at h
  | cons e rest ih =>
    simp only [lookupTile] at h
    by_cases he : e.1 = k
    · simp [addToParent, he]
    · simp only [addToParent, he, if_neg, if_false, List.map_cons,
        List.cons.injEq, true_and]
      exact ih (by simpa [he] using h)

theorem keys_aggregate_nodup (z : Nat)
    (childFiles : List (TileCoord × List Point)) :
    ∀ m, ((m.map (fun e => e.1)).Nodup) →
      (((childFiles.foldl
        (fun m cf => addToParent (parentCoords z cf.1) cf.2 m) m).map
          (fun e => e.1)).Nodup) := by
  induction childFiles with
  | nil => intro m hm; exact hm
  | cons cf rest ih =>
    intro m hm
    rw [List.foldl_cons]
    apply ih
    cases hl : lookupTile (parentCoords z cf.1) m with
    | none =>
      rw [keys_addToParent_none _ _ _ hl]
      have hnotin := (lookupTile_eq_none_iff _ m).mp hl
      simp only [List.nodup_append, List.nodup_cons, List.nodup_nil]
      exact ⟨hm, ⟨by simp, trivial⟩, by simpa using hnotin⟩
    | some v =>
      rw [keys_addToParent_some _ _ _ _ hl]
      exact hm

/-- Accumulation of the buckets of one parent over the filtered children. -/
def appendRun : Option (List Point) → List (List Point) → Option (List Point)
  | cur, [] => cur
  | none, v :: rest => appendRun (some v) rest
  | some acc, v :: rest => appendRun (some (acc ++ v)) rest

theorem appendRun_some (l : List (List Point)) :
    ∀ acc, appendRun (some acc) l = some (acc ++ l.flatten) := by
  induction l with
  | nil => intro acc; simp [appendRun]
  | cons v rest ih =>
    intro acc
    rw [appendRun, ih]
    simp

theorem appendRun_none (l : List (List Point)) (h : l ≠ []) :
    appendRun none l = some l.flatten := by
  cases l with
  | nil => exact absurd rfl h
  | cons v rest =>
    rw [appendRun, appendRun_some]
    simp

theorem lookupTile_of_mem (m : List (TileCoord × List Point))
    (e : TileCoord × List Point) (hmem : e ∈ m)
    (hnd : (m.map (fun e => e.1)).Nodup) :
    lookupTile e.1 m = some e.2 := by
  induction m with
  | nil => simp at hmem
  | cons e0 rest ih =>
    simp only [List.map_cons, List.nodup_cons] at hnd
    rcases List.mem_cons.mp hmem with h | h
    · rw [h]; simp [lookupTile]
    · have hne : e0.1 ≠ e.1 := fun heq =>
        hnd.1 (heq ▸ List.mem_map_of_mem (fun e => e.1) h)
      simp only [lookupTile, hne, if_neg, if_false]
      exact ih h hnd.2

theorem lookupTile_mem (k : TileCoord) (m : List (TileCoord × List Point))
    (v : List Point) (h : lookupTile k m = some v) : (k, v) ∈ m := by
  induction m with
  | nil => simp [lookupTile] at h
  | cons e rest ih =>
    simp only [lookupTile] at h
    by_cases he : e.1 = k
    · simp only [he, if_pos, if_true, Option.some.injEq] at h
      have hkv : (k, v) = e := by
        obtain ⟨e1, e2⟩ := e
        simp only at he h
        rw [he, h]
      rw [hkv]
      exact List.mem_cons_self _ _
    · exact List.mem_cons_of_mem _ (ih (by simpa [he] using h))

theorem lookupTile_foldl (z : Nat) (childFiles : List (TileCoord × List Point))
    (k : TileCoord) :
    ∀ m, lookupTile k (childFiles.foldl
        (fun m cf => addToParent (parentCoords z cf.1) cf.2 m) m) =
      appendRun (lookupTile k m)
        ((childFiles.filter (fun cf => parentCoords z cf.1 = k)).map
          (fun cf => cf.2)) := by
  induction childFiles with
  | nil =>
    intro m
    cases h : lookupTile k m <;> simp [appendRun, h]
  | cons cf rest ih =>
    intro m
    simp only [List.foldl_cons, List.filter_cons]
    by_cases hp : parentCoords z cf.1 = k
    · rw [ih, hp, lookupTile_addToParent_self, if_pos (by simp)]
      cases hm : lookupTile k m with
      | none => simp [appendRun, hm]
      | some v => simp [appendRun, hm]
    · rw [ih, lookupTile_addToParent_other k (parentCoords z cf.1) _ m
        (fun h => hp h.symm), if_neg (by simp [hp])]

theorem lookupTile_aggregate (z : Nat)
    (childFiles : List (TileCoord × List Point)) (k : TileCoord) :
    lookupTile k (aggregateZoomLevel z childFiles) =
      appendRun none
        ((childFiles.filter (fun cf => parentCoords z cf.1 = k)).map
          (fun cf => cf.2)) := by
  rw [aggregateZoomLevel, lookupTile_foldl]
  rfl

theorem ofList_flatten (l : List (List Point)) :
    Multiset.ofList l.flatten = (l.map (fun v => Multiset.ofList v)).sum := by
  induction l with
  | nil => simp
  | cons v rest ih =>
    rw [List.flatten_cons, List.map_cons, List.sum_cons, ← ih]
    rfl

/-- C7: after aggregating level z, each parent tile that has at least one
child file at level z+1 appears exactly once (pairwise distinct parent
keys, and a parent is present exactly when it has a child), its point
multiset is the union of the point multisets of its children, and the
children of parent (z, x, y) are exactly the tiles (z+1, 2x or 2x+1,
2y or 2y+1). -/
theorem C7_aggregate_zoom_level (z : Nat)
    (childFiles : List (TileCoord × List Point)) :
    (aggregateZoomLevel z childFiles).Pairwise (fun a b => a.1 ≠ b.1) ∧
    (∀ pc pts, (pc, pts) ∈ aggregateZoomLevel z childFiles →
      Multiset.ofList pts =
        ((childFiles.filter (fun cf => parentCoords z cf.1 = pc)).map
          (fun cf => Multiset.ofList cf.2)).sum) ∧
    (∀ pc, (∃ pts, (pc, pts) ∈ aggregateZoomLevel z childFiles) ↔
      ∃ cf ∈ childFiles, parentCoords z cf.1 = pc) ∧
    (∀ cz cx cy x y, parentCoords z (cz, cx, cy) = (z, x, y) ↔
      ((cx = 2 * x ∨ cx = 2 * x + 1) ∧ (cy = 2 * y ∨ cy = 2 * y + 1))) := by
  have hnodup : ((aggregateZoomLevel z childFiles).map
      (fun e => e.1)).Nodup :=
    keys_aggregate_nodup z childFiles [] (by simp)
  refine ⟨?_, ?_, ?_, ?_⟩
  · rw [List.Nodup, List.pairwise_map] at hnodup
    exact hnodup
  · intro pc pts hmem
    have hlook : lookupTile pc (aggregateZoomLevel z childFiles) =
        some pts := lookupTile_of_mem _ (pc, pts) hmem hnodup
    rw [lookupTile_aggregate] at hlook
    cases hf : childFiles.filter (fun cf => parentCoords z cf.1 = pc) with
    | nil => rw [hf] at hlook; simp [appendRun] at hlook
    | cons f0 frest =>
      rw [hf, appendRun_none _ (by simp)] at hlook
      have hpts : pts = ((f0 :: frest).map (fun cf => cf.2)).flatten :=
        (Option.some.inj hlook).symm
      rw [hpts, ofList_flatten, List.map_map]
      rfl
  · intro pc
    constructor
    · intro ⟨pts, hmem⟩
      have hlook : lookupTile pc (aggregateZoomLevel z childFiles) =
          some pts := lookupTile_of_mem _ (pc, pts) hmem hnodup
      rw [lookupTile_aggregate] at hlook
      cases hf : childFiles.filter (fun cf => parentCoords z cf.1 = pc) with
      | nil => rw [hf] at hlook; simp [appendRun] at hlook
      | cons f0 frest =>
        have hf0 : f0 ∈ childFiles.filter
            (fun cf => parentCoords z cf.1 = pc) := by
          rw [hf]; exact List.mem_cons_self _ _
        have := List.mem_filter.mp hf0
        exact ⟨f0, this.1, by simpa using this.2⟩
    · intro ⟨cf, hcf, hpc⟩
      have hne : childFiles.filter (fun cf => parentCoords z cf.1 = pc) ≠ [] := by
        intro hnil
        have : cf ∈ childFiles.filter (fun cf => parentCoords z cf.1 = pc) :=
          List.mem_filter.mpr ⟨hcf, by simp [hpc]⟩
        rw [hnil] at this
        simp at this
      refine ⟨((childFiles.filter (fun cf => parentCoords z cf.1 = pc)).map
        (fun cf => cf.2)).flatten, ?_⟩
      apply lookupTile_mem
      rw [lookupTile_aggregate, appendRun_none]
      simpa using hne
  · intro cz cx cy x y
    have h1 : parentCoords z (cz, cx, cy) = (z, cx / 2, cy / 2) := rfl
    rw [h1, Prod.mk.injEq, Prod.mk.injEq]
    omega

/-! ## Claim C7 witness -/

/-- Witness for C7: two sibling leaf files at level 18 aggregate into one
parent bucket at level 17 whose multiset is the union of the two. -/
theorem C7_aggregate_zoom_level_witness :
    ((17, 1, 1), [mkPoint 1 2 3, mkPoint 4 5 6]) ∈
      aggregateZoomLevel 17
        [((18, 2, 3), [mkPoint 1 2 3]), ((18, 3, 3), [mkPoint 4 5 6])] ∧
    Multiset.ofList [mkPoint 1 2 3, mkPoint 4 5 6] =
      (([((18, 2, 3), [mkPoint 1 2 3]), ((18, 3, 3), [mkPoint 4 5 6])].filter
        (fun cf => parentCoords 17 cf.1 = (17, 1, 1))).map
        (fun cf => Multiset.ofList cf.2)).sum := by
  have hmem : ((17, 1, 1), [mkPoint 1 2 3, mkPoint 4 5 6]) ∈
      aggregateZoomLevel 17
        [((18, 2, 3), [mkPoint 1 2 3]), ((18, 3, 3), [mkPoint 4 5 6])] := by
    simp [aggregateZoomLevel, addToParent, parentCoords]
  exact ⟨hmem, (C7_aggregate_zoom_level 17 _).2.1 _ _ hmem⟩

/-! ## Claim C8: empty input list (app/src/main.rs, check_and_get_extension) -/

/-- Supported input extensions (pcd-parser parser/mod.rs, enum Extension). -/
inductive Extension
  | las
  | laz
  | csv
  | txt
deriving DecidableEq

/-- get_extension (pcd-parser parser/mod.rs); the unsupported-extension
panic of the source is modelled as none. -/
def getExtension (ext : String) : Option Extension :=
  if ext = "las" then some Extension.las
  else if ext = "laz" then some Extension.laz
  else if ext = "csv" then some Extension.csv
  else if ext = "txt" then some Extension.txt
  else none

/-- check_and_get_extension (main.rs): the argument is the per-path
extension() result. The outer Option models panics: on a missing or
unsupported extension the function returns its designed error string, but
with an empty path list the source indexes extensions[0] and panics
(modelled as none). Sort plus consecutive dedup on a sorted vector is
modelled by mergeSort plus dedup. -/
def checkAndGetExtension (pathExtensions : List (Option String)) :
    Option (Except String Extension) :=
  if pathExtensions.any (fun e => e.isNone) then
    some (Except.error "File extension is not found")
  else
    let uniq := ((pathExtensions.filterMap id).mergeSort
      (fun a b => decide (a ≤ b))).dedup
    if uniq.length > 1 then
      some (Except.error "Multiple extensions are not supported")
    else
      match uniq with
      | [] => none
      | e :: _ => (getExtension e).map Except.ok

/-- C8: with an empty expanded input file list, check_and_get_extension
neither succeeds nor returns the designed input-failure error: it panics on
the out-of-bounds index extensions[0] (the none outcome), so the program
aborts with a non-zero exit before any tile is produced; the graceful
InputFailure report the specification asks for is not what the code does. -/
theorem C8_empty_input_panics : checkAndGetExtension [] = none := by
  simp [checkAndGetExtension]

/-! ## Claim C9: the gzip_compress flag (app/src/main.rs, export_tiles_to_glb) -/

/-- The GLB write of export_tiles_to_glb (main.rs): both branches of
if gzip_compress perform the identical uncompressed
to_writer_with_alignment write (the gzip writer is commented out), applied
here to the serialized GLB bytes. -/
def writeGlbFile (gzipCompress : Bool) (serializedGlb : List Nat) : List Nat :=
  if gzipCompress then serializedGlb else serializedGlb

/-- C9: the gzip_compress flag has no effect on the bytes written for any
tile: both branches of the export writer produce the same output. -/
theorem C9_gzip_flag_no_effect (gz1 gz2 : Bool) (serializedGlb : List Nat) :
    writeGlbFile gz1 serializedGlb = writeGlbFile gz2 serializedGlb := by
  cases gz1 <;> cases gz2 <;> rfl

/-! ## GLB vertex-buffer model (pcd-exporter/src/gltf.rs, pcd-core point.rs) -/

/-- Per-axis minimum fold of PointCloud::new (point.rs): the f64::MAX seed
followed by min over all points is modelled, for a nonempty cloud, by
seeding with the first point; the empty cloud (whose offset would be the
f64::MAX sentinel) is mapped to zero and is outside every claim here. -/
def cloudOffset : List Point → ℚ × ℚ × ℚ
  | [] => (0, 0, 0)
  | p :: rest => rest.foldl
      (fun acc q => (min acc.1 q.x, min acc.2.1 q.y, min acc.2.2 q.z))
      (p.x, p.y, p.z)

/-- A point cloud with the metadata offset of PointCloud::new. -/
structure PointCloud where
  points : List Point
  offset : ℚ × ℚ × ℚ

/-- PointCloud::new (point.rs): the offset is the per-axis minimum. -/
def PointCloud.new (points : List Point) : PointCloud :=
  { points := points, offset := cloudOffset points }

/-- rcp (gltf.rs): guarded reciprocal, zero for zero. -/
def rcp (v : ℚ) : ℚ := if v ≠ 0 then 1 / v else 0

/-- quantize_unsigned_norm (gltf.rs): clamp to the unit interval, scale by
2 to the bits minus one, add one half, truncate (the argument is
nonnegative, so the i32 cast is the floor). -/
def quantizeUnsignedNorm (value : ℚ) (bits : Nat) : ℤ :=
  ⌊(min (max value 0) 1) * ((2 ^ bits - 1 : ℤ) : ℚ) + 1 / 2⌋

/-- common_scale (gltf.rs, build_vertex_buffer_quantized): fold of the
maximum of coordinate minus offset over all points and axes, from zero. -/
def commonScale (points : List Point) (offset : ℚ × ℚ × ℚ) : ℚ :=
  points.foldl
    (fun result p =>
      max (max (max result (p.x - offset.1)) (p.y - offset.2.1))
        (p.z - offset.2.2)) 0

/-- The three quantized position components of one point
(build_vertex_buffer_quantized). -/
def quantizePosition (offset : ℚ × ℚ × ℚ) (scaleInv : ℚ) (p : Point) :
    ℤ × ℤ × ℤ :=
  (quantizeUnsignedNorm ((p.x - offset.1) * scaleInv) 16,
   quantizeUnsignedNorm ((p.y - offset.2.1) * scaleInv) 16,
   quantizeUnsignedNorm ((p.z - offset.2.2) * scaleInv) 16)

/-- Little-endian bytes of a quantized component after the i32 to u16 cast. -/
def u16Bytes (v : ℤ) : List Nat :=
  [(v % 65536).toNat % 256, (v % 65536).toNat / 256]

/-- The 12-byte quantized vertex record: 3 u16 positions, 2 pad bytes,
3 color bytes, 1 pad byte (build_vertex_buffer_quantized). The sRGB color
conversion of to_rgb8_normalized uses a non-rational power and is taken as
a parameter. -/
def quantizedVertexRecord (colorBytes : Point → Nat × Nat × Nat)
    (offset : ℚ × ℚ × ℚ) (scaleInv : ℚ) (p : Point) : List Nat :=
  u16Bytes (quantizePosition offset scaleInv p).1 ++
    u16Bytes (quantizePosition offset scaleInv p).2.1 ++
    u16Bytes (quantizePosition offset scaleInv p).2.2 ++
    [0, 0] ++
    [(colorBytes p).1, (colorBytes p).2.1, (colorBytes p).2.2] ++
    [0]

/-- The full quantized vertex buffer bytes. -/
def quantizedVertexBytes (colorBytes : Point → Nat × Nat × Nat)
    (offset : ℚ × ℚ × ℚ) (scaleInv : ℚ) (points : List Point) : List Nat :=
  (points.map (quantizedVertexRecord colorBytes offset scaleInv)).flatten

/-- The vertex-buffer summary of build_vertex_buffer_quantized (gltf.rs). -/
structure VertexBufferInfo where
  bytes : List Nat
  byteStride : Nat
  vertexCount : Nat
  translation : ℚ × ℚ × ℚ
  scale : Option (ℚ × ℚ × ℚ)

/-- build_vertex_buffer_quantized (gltf.rs): stride 12, translation is the
cloud offset, scale is (common_scale, common_scale, common_scale). -/
def buildVertexBufferQuantized (colorBytes : Point → Nat × Nat × Nat)
    (pc : PointCloud) : VertexBufferInfo :=
  { bytes := quantizedVertexBytes colorBytes pc.offset
      (rcp (commonScale pc.points pc.offset)) pc.points
    byteStride := 12
    vertexCount := pc.points.length
    translation := pc.offset
    scale := some (commonScale pc.points pc.offset,
      commonScale pc.points pc.offset, commonScale pc.points pc.offset) }

/-- The node of the assembled GLB (assemble_glb, gltf.rs): translation is
info.translation; scale is info.scale when present, the glTF default
otherwise. -/
structure GlbNode where
  translation : ℚ × ℚ × ℚ
  scale : ℚ × ℚ × ℚ

/-- assemble_glb (gltf.rs), restricted to the node it builds. -/
def assembleGlbNode (info : VertexBufferInfo) : GlbNode :=
  { translation := info.translation, scale := info.scale.getD (1, 1, 1) }

/-- generate_quantized_glb: the quantized vertex-buffer build followed by
GLB assembly without meshopt, as generate_glb_with_options does for
quantize set (gltf.rs). -/
def generateQuantizedGlbNode (colorBytes : Point → Nat × Nat × Nat)
    (pc : PointCloud) : GlbNode :=
  assembleGlbNode (buildVertexBufferQuantized colorBytes pc)

/-- The Cesium axis swap applied after reprojection in export_tiles_to_glb
(main.rs): (x, y, z) to (x, z, -y). -/
def axisSwap (p : Point) : Point :=
  { p with x := p.x, y := p.z, z := -p.y }

/-- The point list a tile exports (export_tiles_to_glb, main.rs): reproject
every point (the geocentric PROJ transform is an external collaborator,
taken as a parameter), apply the axis swap, then decimate. The voxel size,
geometric_error(z, y) times 0.1 in the source, is likewise a parameter. -/
def exportPoints (transform : Point → Point) (voxelSize : ℚ)
    (tilePoints : List Point) : List Point :=
  decimate voxelSize ((tilePoints.map transform).map axisSwap)

/-- The GLB node a tile exports with quantization on (export_tiles_to_glb:
PointCloud::new over the decimated points, then generate_quantized_glb). -/
def exportGlbNode (colorBytes : Point → Nat × Nat × Nat)
    (transform : Point → Point) (voxelSize : ℚ)
    (tilePoints : List Point) : GlbNode :=
  generateQuantizedGlbNode colorBytes
    (PointCloud.new (exportPoints transform voxelSize tilePoints))

/-! ## Minimum and maximum fold lemmas -/

theorem foldl_min_spec (f : Point → ℚ) (l : List Point) :
    ∀ b : ℚ, (l.foldl (fun a q => min a (f q)) b = b ∨
        ∃ q ∈ l, l.foldl (fun a q => min a (f q)) b = f q) ∧
      l.foldl (fun a q => min a (f q)) b ≤ b ∧
      ∀ q ∈ l, l.foldl (fun a q => min a (f q)) b ≤ f q := by
  induction l with
  | nil => intro b; exact ⟨Or.inl rfl, le_refl b, by simp⟩
  | cons q rest ih =>
    intro b
    rw [List.foldl_cons]
    rcases ih (min b (f q)) with ⟨hat, hle, hall⟩
    refine ⟨?_, le_trans hle (min_le_left _ _), ?_⟩
    · rcases hat with hat | ⟨q2, hq2, heq⟩
      · rcases min_choice b (f q) with hmin | hmin
        · left; rw [hat, hmin]
        · right; exact ⟨q, List.mem_cons_self _ _, by rw [hat, hmin]⟩
      · right; exact ⟨q2, List.mem_cons_of_mem _ hq2, heq⟩
    · intro q2 hq2
      rcases List.mem_cons.mp hq2 with hh | hh
      · rw [hh]; exact le_trans hle (min_le_right _ _)
      · exact hall q2 hh

theorem cloudOffset_proj (l : List Point) :
    ∀ b : ℚ × ℚ × ℚ,
      (l.foldl (fun acc q =>
        (min acc.1 q.x, min acc.2.1 q.y, min acc.2.2 q.z)) b).1 =
        l.foldl (fun a q => min a q.x) b.1 ∧
      (l.foldl (fun acc q =>
        (min acc.1 q.x, min acc.2.1 q.y, min acc.2.2 q.z)) b).2.1 =
        l.foldl (fun a q => min a q.y) b.2.1 ∧
      (l.foldl (fun acc q =>
        (min acc.1 q.x, min acc.2.1 q.y, min acc.2.2 q.z)) b).2.2 =
        l.foldl (fun a q => min a q.z) b.2.2 := by
  induction l with
  | nil => intro b; exact ⟨rfl, rfl, rfl⟩
  | cons q rest ih => intro b; exact ih _

/-- The offset of a nonempty cloud is an attained per-axis minimum. -/
theorem cloudOffset_attained (pts : List Point) (h : pts ≠ []) :
    ((cloudOffset pts).1 ∈ pts.map Point.x ∧
      ∀ q ∈ pts, (cloudOffset pts).1 ≤ q.x) ∧
    ((cloudOffset pts).2.1 ∈ pts.map Point.y ∧
      ∀ q ∈ pts, (cloudOffset pts).2.1 ≤ q.y) ∧
    ((cloudOffset pts).2.2 ∈ pts.map Point.z ∧
      ∀ q ∈ pts, (cloudOffset pts).2.2 ≤ q.z) := by
  cases pts with
  | nil => exact absurd rfl h
  | cons p rest =>
    have hproj := cloudOffset_proj rest (p.x, p.y, p.z)
    have hco : cloudOffset (p :: rest) = rest.foldl
        (fun acc q => (min acc.1 q.x, min acc.2.1 q.y, min acc.2.2 q.z))
        (p.x, p.y, p.z) := rfl
    refine ⟨?_, ?_, ?_⟩
    · rw [hco, hproj.1]
      rcases foldl_min_spec Point.x rest p.x with ⟨hat, hle, hall⟩
      refine ⟨?_, ?_⟩
      · rcases hat with hat | ⟨q, hq, heq⟩
        · rw [hat]; exact List.mem_map_of_mem Point.x (List.mem_cons_self _ _)
        · rw [heq]; exact List.mem_map_of_mem Point.x (List.mem_cons_of_mem _ hq)
      · intro q hq
        rcases List.mem_cons.mp hq with hh | hh
        · rw [hh]; exact hle
        · exact hall q hh
    · rw [hco, hproj.2.1]
      rcases foldl_min_spec Point.y rest p.y with ⟨hat, hle, hall⟩
      refine ⟨?_, ?_⟩
      · rcases hat with hat | ⟨q, hq, heq⟩
        · rw [hat]; exact List.mem_map_of_mem Point.y (List.mem_cons_self _ _)
        · rw [heq]; exact List.mem_map_of_mem Point.y (List.mem_cons_of_mem _ hq)
      · intro q hq
        rcases List.mem_cons.mp hq with hh | hh
        · rw [hh]; exact hle
        · exact hall q hh
    · rw [hco, hproj.2.2]
      rcases foldl_min_spec Point.z rest p.z with ⟨hat, hle, hall⟩
      refine ⟨?_, ?_⟩
      · rcases hat with hat | ⟨q, hq, heq⟩
        · rw [hat]; exact List.mem_map_of_mem Point.z (List.mem_cons_self _ _)
        · rw [heq]; exact List.mem_map_of_mem Point.z (List.mem_cons_of_mem _ hq)
      · intro q hq
        rcases List.mem_cons.mp hq with hh | hh
        · rw [hh]; exact hle
        · exact hall q hh

theorem foldl_max3_spec (off : ℚ × ℚ × ℚ) (l : List Point) :
    ∀ b : ℚ,
      (l.foldl (fun result p =>
          max (max (max result (p.x - off.1)) (p.y - off.2.1))
            (p.z - off.2.2)) b = b ∨
        ∃ p ∈ l,
          l.foldl (fun result p =>
            max (max (max result (p.x - off.1)) (p.y - off.2.1))
              (p.z - off.2.2)) b = p.x - off.1 ∨
          l.foldl (fun result p =>
            max (max (max result (p.x - off.1)) (p.y - off.2.1))
              (p.z - off.2.2)) b = p.y - off.2.1 ∨
          l.foldl (fun result p =>
            max (max (max result (p.x - off.1)) (p.y - off.2.1))
              (p.z - off.2.2)) b = p.z - off.2.2) ∧
      b ≤ l.foldl (fun result p =>
          max (max (max result (p.x - off.1)) (p.y - off.2.1))
            (p.z - off.2.2)) b ∧
      ∀ p ∈ l,
        p.x - off.1 ≤ l.foldl (fun result p =>
          max (max (max result (p.x - off.1)) (p.y - off.2.1))
            (p.z - off.2.2)) b ∧
        p.y - off.2.1 ≤ l.foldl (fun result p =>
          max (max (max result (p.x - off.1)) (p.y - off.2.1))
            (p.z - off.2.2)) b ∧
        p.z - off.2.2 ≤ l.foldl (fun result p =>
          max (max (max result (p.x - off.1)) (p.y - off.2.1))
            (p.z - off.2.2)) b := by
  induction l with
  | nil => intro b; exact ⟨Or.inl rfl, le_refl b, by simp⟩
  | cons p rest ih =>
    intro b
    rw [List.foldl_cons]
    rcases ih (max (max (max b (p.x - off.1)) (p.y - off.2.1))
      (p.z - off.2.2)) with ⟨hat, hle, hall⟩
    have hb : b ≤ max (max (max b (p.x - off.1)) (p.y - off.2.1))
        (p.z - off.2.2) :=
      le_trans (le_max_left _ _) (le_trans (le_max_left _ _) (le_max_left _ _))
    have hx : p.x - off.1 ≤ max (max (max b (p.x - off.1)) (p.y - off.2.1))
        (p.z - off.2.2) :=
      le_trans (le_max_right _ _) (le_trans (le_max_left _ _) (le_max_left _ _))
    have hy : p.y - off.2.1 ≤ max (max (max b (p.x - off.1)) (p.y - off.2.1))
        (p.z - off.2.2) :=
      le_trans (le_max_right _ _) (le_max_left _ _)
    have hz : p.z - off.2.2 ≤ max (max (max b (p.x - off.1)) (p.y - off.2.1))
        (p.z - off.2.2) := le_max_right _ _
    refine ⟨?_, le_trans hb hle, ?_⟩
    · rcases hat with hat | ⟨p2, hp2, heq⟩
      · rcases max_choice (max (max b (p.x - off.1)) (p.y - off.2.1))
          (p.z - off.2.2) with h1 | h1
        · rcases max_choice (max b (p.x - off.1)) (p.y - off.2.1) with h2 | h2
          · rcases max_choice b (p.x - off.1) with h3 | h3
            · left; rw [hat, h1, h2, h3]
            · right
              exact ⟨p, List.mem_cons_self _ _, Or.inl (by rw [hat, h1, h2, h3])⟩
          · right
            exact ⟨p, List.mem_cons_self _ _, Or.inr (Or.inl (by rw [hat, h1, h2]))⟩
        · right
          exact ⟨p, List.mem_cons_self _ _, Or.inr (Or.inr (by rw [hat, h1]))⟩
      · right
        exact ⟨p2, List.mem_cons_of_mem _ hp2, heq⟩
    · intro p2 hp2
      rcases List.mem_cons.mp hp2 with hh | hh
      · rw [hh]
        exact ⟨le_trans hx hle, le_trans hy hle, le_trans hz hle⟩
      · exact hall p2 hh

/-! ## Quantization arithmetic lemmas -/

theorem mul_rcp_eq_div (c v : ℚ) : c * rcp v = c / v := by
  rw [rcp]
  by_cases hv : v = 0
  · simp [hv]
  · simp only [hv, if_pos, ne_eq, not_false_eq_true, if_true]
    rw [mul_one_div]

theorem quantizeUnsignedNorm_eq_round (v : ℚ) :
    quantizeUnsignedNorm v 16 = round ((min (max v 0) 1) * 65535) := by
  rw [quantizeUnsignedNorm, round_eq]
  norm_num

theorem quantizeUnsignedNorm_bounds (v : ℚ) :
    0 ≤ quantizeUnsignedNorm v 16 ∧ quantizeUnsignedNorm v 16 ≤ 65535 := by
  rw [quantizeUnsignedNorm]
  have hc0 : (0:ℚ) ≤ min (max v 0) 1 := le_min (le_max_right v 0) (by norm_num)
  have hc1 : min (max v 0) 1 ≤ 1 := min_le_right _ _
  have harg0 : (0:ℚ) ≤ (min (max v 0) 1) * ((2 ^ 16 - 1 : ℤ) : ℚ) + 1 / 2 := by
    have : (0:ℚ) ≤ (min (max v 0) 1) * ((2 ^ 16 - 1 : ℤ) : ℚ) :=
      mul_nonneg hc0 (by norm_num)
    linarith
  have harg1 : (min (max v 0) 1) * ((2 ^ 16 - 1 : ℤ) : ℚ) + 1 / 2 ≤
      131071 / 2 := by
    have : (min (max v 0) 1) * ((2 ^ 16 - 1 : ℤ) : ℚ) ≤ 65535 := by
      have h655 : ((2 ^ 16 - 1 : ℤ) : ℚ) = 65535 := by norm_num
      rw [h655]
      nlinarith
    linarith
  constructor
  · exact Int.floor_nonneg.mpr harg0
  · calc ⌊(min (max v 0) 1) * ((2 ^ 16 - 1 : ℤ) : ℚ) + 1 / 2⌋
        ≤ ⌊(131071 / 2 : ℚ)⌋ := Int.floor_le_floor harg1
      _ = 65535 := by norm_num

theorem quantizeUnsignedNorm_zero : quantizeUnsignedNorm 0 16 = 0 := by
  rw [quantizeUnsignedNorm]
  norm_num

theorem quantizedVertexRecord_length (colorBytes : Point → Nat × Nat × Nat)
    (offset : ℚ × ℚ × ℚ) (scaleInv : ℚ) (p : Point) :
    (quantizedVertexRecord colorBytes offset scaleInv p).length = 12 := by
  rfl

theorem quantizedVertexBytes_length (colorBytes : Point → Nat × Nat × Nat)
    (offset : ℚ × ℚ × ℚ) (scaleInv : ℚ) (points : List Point) :
    (quantizedVertexBytes colorBytes offset scaleInv points).length =
      12 * points.length := by
  induction points with
  | nil => rfl
  | cons p rest ih =>
    rw [quantizedVertexBytes, List.map_cons, List.flatten_cons,
      List.length_append, quantizedVertexRecord_length,
      ← quantizedVertexBytes, ih, List.length_cons]
    ring

/-! ## Claim C2: the GLB node translation -/

theorem decimate_singleton (s : ℚ) (p : Point) : decimate s [p] = [p] := by
  rw [decimate_eq, indexedBest]
  have h1 : bestMap s [p] = [(voxelIndex s p, (voxelDist s p, p))] := rfl
  rw [h1, List.map_cons, List.map_nil, List.mergeSort_singleton]
  rfl

/-- C2, counterexample: a single tile point (1, 2, 3) exported with the
identity reprojection and voxel size 1 yields node translation (1, 3, -2)
(the minimum of the axis-swapped decimated cloud), not the geographic min
corner (1, 2, 3) of the tile points before reprojection. -/
theorem C2_node_translation_counterexample :
    (exportGlbNode (fun _ => (0, 0, 0)) (fun p => p) 1
        [mkPoint 1 2 3]).translation = ((1 : ℚ), (3 : ℚ), (-2 : ℚ)) ∧
    (exportGlbNode (fun _ => (0, 0, 0)) (fun p => p) 1
        [mkPoint 1 2 3]).translation ≠ ((1 : ℚ), (2 : ℚ), (3 : ℚ)) := by
  have hexp : exportPoints (fun p => p) 1 [mkPoint 1 2 3] =
      [axisSwap (mkPoint 1 2 3)] := by
    rw [exportPoints, List.map_cons, List.map_nil, List.map_cons, List.map_nil]
    exact decimate_singleton 1 _
  have htr : (exportGlbNode (fun _ => (0, 0, 0)) (fun p => p) 1
      [mkPoint 1 2 3]).translation =
      cloudOffset (exportPoints (fun p => p) 1 [mkPoint 1 2 3]) := rfl
  rw [htr, hexp]
  have hval : cloudOffset [axisSwap (mkPoint 1 2 3)] =
      ((1 : ℚ), (3 : ℚ), (-2 : ℚ)) := rfl
  rw [hval]
  refine ⟨rfl, ?_⟩
  intro hcontra
  rw [Prod.mk.injEq, Prod.mk.injEq] at hcontra
  have : (3 : ℚ) = 2 := hcontra.2.1
  norm_num at this

/-- C2, amended: the node translation of an exported quantized GLB is the
per-axis minimum of the tile points after reprojection, axis swap and
decimation (the offset of the cloud handed to the encoder), for every
reprojection, voxel size and color conversion, whenever the exported cloud
is nonempty. -/
theorem C2_node_translation_amended (colorBytes : Point → Nat × Nat × Nat)
    (transform : Point → Point) (voxelSize : ℚ) (tilePoints : List Point)
    (h : exportPoints transform voxelSize tilePoints ≠ []) :
    ((exportGlbNode colorBytes transform voxelSize tilePoints).translation.1 ∈
        (exportPoints transform voxelSize tilePoints).map Point.x ∧
      ∀ q ∈ exportPoints transform voxelSize tilePoints,
        (exportGlbNode colorBytes transform voxelSize
          tilePoints).translation.1 ≤ q.x) ∧
    ((exportGlbNode colorBytes transform voxelSize tilePoints).translation.2.1 ∈
        (exportPoints transform voxelSize tilePoints).map Point.y ∧
      ∀ q ∈ exportPoints transform voxelSize tilePoints,
        (exportGlbNode colorBytes transform voxelSize
          tilePoints).translation.2.1 ≤ q.y) ∧
    ((exportGlbNode colorBytes transform voxelSize tilePoints).translation.2.2 ∈
        (exportPoints transform voxelSize tilePoints).map Point.z ∧
      ∀ q ∈ exportPoints transform voxelSize tilePoints,
        (exportGlbNode colorBytes transform voxelSize
          tilePoints).translation.2.2 ≤ q.z) := by
  have htr : (exportGlbNode colorBytes transform voxelSize
      tilePoints).translation =
      cloudOffset (exportPoints transform voxelSize tilePoints) := rfl
  rw [htr]
  exact cloudOffset_attained _ h

/-- Witness for the amended C2 at a concrete input. -/
theorem C2_node_translation_witness :
    exportPoints (fun p => p) 1 [mkPoint 1 2 3] ≠ [] ∧
    (((exportGlbNode (fun _ => (0, 0, 0)) (fun p => p) 1
          [mkPoint 1 2 3]).translation.1 ∈
        (exportPoints (fun p => p) 1 [mkPoint 1 2 3]).map Point.x ∧
      ∀ q ∈ exportPoints (fun p => p) 1 [mkPoint 1 2 3],
        (exportGlbNode (fun _ => (0, 0, 0)) (fun p => p) 1
          [mkPoint 1 2 3]).translation.1 ≤ q.x) ∧
    ((exportGlbNode (fun _ => (0, 0, 0)) (fun p => p) 1
          [mkPoint 1 2 3]).translation.2.1 ∈
        (exportPoints (fun p => p) 1 [mkPoint 1 2 3]).map Point.y ∧
      ∀ q ∈ exportPoints (fun p => p) 1 [mkPoint 1 2 3],
        (exportGlbNode (fun _ => (0, 0, 0)) (fun p => p) 1
          [mkPoint 1 2 3]).translation.2.1 ≤ q.y) ∧
    ((exportGlbNode (fun _ => (0, 0, 0)) (fun p => p) 1
          [mkPoint 1 2 3]).translation.2.2 ∈
        (exportPoints (fun p => p) 1 [mkPoint 1 2 3]).map Point.z ∧
      ∀ q ∈ exportPoints (fun p => p) 1 [mkPoint 1 2 3],
        (exportGlbNode (fun _ => (0, 0, 0)) (fun p => p) 1
          [mkPoint 1 2 3]).translation.2.2 ≤ q.z)) := by
  have hexp : exportPoints (fun p => p) 1 [mkPoint 1 2 3] =
      [axisSwap (mkPoint 1 2 3)] := by
    rw [exportPoints, List.map_cons, List.map_nil, List.map_cons, List.map_nil]
    exact decimate_singleton 1 _
  have hne : exportPoints (fun p => p) 1 [mkPoint 1 2 3] ≠ [] := by
    rw [hexp]
    exact List.cons_ne_nil _ _
  exact ⟨hne, C2_node_translation_amended (fun _ => (0, 0, 0)) (fun p => p) 1
    [mkPoint 1 2 3] hne⟩

/-! ## Claim C5: the quantized vertex layout -/

/-- C5: for a nonempty cloud built by PointCloud::new, the quantized GLB
has node scale (c, c, c) where c is the (attained) maximum over all points
and all three axes of coordinate minus offset; every position component is
round(clamp((coordinate − offset)/c, 0, 1) · (2^16 − 1)); and the vertex
stride is 12 bytes, the buffer holding 12 bytes per point. -/
theorem C5_quantized_layout (colorBytes : Point → Nat × Nat × Nat)
    (pts : List Point) (h : pts ≠ []) :
    (buildVertexBufferQuantized colorBytes (PointCloud.new pts)).scale =
      some (commonScale pts (cloudOffset pts),
        commonScale pts (cloudOffset pts),
        commonScale pts (cloudOffset pts)) ∧
    (∃ p ∈ pts,
      commonScale pts (cloudOffset pts) = p.x - (cloudOffset pts).1 ∨
      commonScale pts (cloudOffset pts) = p.y - (cloudOffset pts).2.1 ∨
      commonScale pts (cloudOffset pts) = p.z - (cloudOffset pts).2.2) ∧
    (∀ p ∈ pts,
      p.x - (cloudOffset pts).1 ≤ commonScale pts (cloudOffset pts) ∧
      p.y - (cloudOffset pts).2.1 ≤ commonScale pts (cloudOffset pts) ∧
      p.z - (cloudOffset pts).2.2 ≤ commonScale pts (cloudOffset pts)) ∧
    (∀ p ∈ pts,
      quantizePosition (cloudOffset pts)
          (rcp (commonScale pts (cloudOffset pts))) p =
        (round ((min (max ((p.x - (cloudOffset pts).1) /
            commonScale pts (cloudOffset pts)) 0) 1) * 65535 : ℚ),
         round ((min (max ((p.y - (cloudOffset pts).2.1) /
            commonScale pts (cloudOffset pts)) 0) 1) * 65535 : ℚ),
         round ((min (max ((p.z - (cloudOffset pts).2.2) /
            commonScale pts (cloudOffset pts)) 0) 1) * 65535 : ℚ))) ∧
    (buildVertexBufferQuantized colorBytes (PointCloud.new pts)).byteStride
      = 12 ∧
    (buildVertexBufferQuantized colorBytes
      (PointCloud.new pts)).bytes.length = 12 * pts.length := by
  rcases foldl_max3_spec (cloudOffset pts) pts 0 with ⟨hat, _, hall⟩
  refine ⟨rfl, ?_, hall, ?_, rfl, ?_⟩
  · rcases hat with hat | hval
    · rcases (cloudOffset_attained pts h).1.1 with hx
      rcases List.mem_map.mp hx with ⟨p0, hp0, hp0x⟩
      refine ⟨p0, hp0, Or.inl ?_⟩
      rw [commonScale, hat, hp0x]
      ring
    · exact hval
  · intro p _
    rw [quantizePosition, mul_rcp_eq_div, mul_rcp_eq_div, mul_rcp_eq_div,
      quantizeUnsignedNorm_eq_round, quantizeUnsignedNorm_eq_round,
      quantizeUnsignedNorm_eq_round]
  · exact quantizedVertexBytes_length colorBytes _ _ pts

/-- Witness for C5 at a concrete two-point cloud. -/
theorem C5_quantized_layout_witness :
    ([mkPoint 0 0 0, mkPoint 1 2 3] : List Point) ≠ [] ∧
    (buildVertexBufferQuantized (fun _ => (0, 0, 0))
        (PointCloud.new [mkPoint 0 0 0, mkPoint 1 2 3])).byteStride = 12 ∧
    (buildVertexBufferQuantized (fun _ => (0, 0, 0))
        (PointCloud.new [mkPoint 0 0 0, mkPoint 1 2 3])).bytes.length =
      12 * ([mkPoint 0 0 0, mkPoint 1 2 3] : List Point).length ∧
    (buildVertexBufferQuantized (fun _ => (0, 0, 0))
        (PointCloud.new [mkPoint 0 0 0, mkPoint 1 2 3])).scale =
      some (commonScale [mkPoint 0 0 0, mkPoint 1 2 3]
          (cloudOffset [mkPoint 0 0 0, mkPoint 1 2 3]),
        commonScale [mkPoint 0 0 0, mkPoint 1 2 3]
          (cloudOffset [mkPoint 0 0 0, mkPoint 1 2 3]),
        commonScale [mkPoint 0 0 0, mkPoint 1 2 3]
          (cloudOffset [mkPoint 0 0 0, mkPoint 1 2 3])) := by
  have happ := C5_quantized_layout (fun _ => (0, 0, 0))
    [mkPoint 0 0 0, mkPoint 1 2 3] (List.cons_ne_nil _ _)
  exact ⟨List.cons_ne_nil _ _, happ.2.2.2.2.1, happ.2.2.2.2.2, happ.1⟩

/-! ## Claim C10: totality of the quantizer -/

/-- C10: quantize_unsigned_norm with 16 bits always lands in [0, 65535]
(so the u16 cast never truncates: reducing modulo 2^16 is the identity on
its results); rcp 0 = 0; and when the common scale of a cloud is zero,
every quantized position component is 0. -/
theorem C10_quantize_total_safe :
    (∀ v : ℚ, 0 ≤ quantizeUnsignedNorm v 16 ∧
      quantizeUnsignedNorm v 16 ≤ 65535 ∧
      quantizeUnsignedNorm v 16 % 65536 = quantizeUnsignedNorm v 16) ∧
    rcp 0 = 0 ∧
    (∀ (offset : ℚ × ℚ × ℚ) (pts : List Point) (p : Point),
      commonScale pts offset = 0 → p ∈ pts →
      quantizePosition offset (rcp (commonScale pts offset)) p =
        (0, 0, 0)) := by
  have hrcp0 : rcp 0 = 0 := by simp [rcp]
  refine ⟨?_, hrcp0, ?_⟩
  · intro v
    rcases quantizeUnsignedNorm_bounds v with ⟨h0, h1⟩
    exact ⟨h0, h1, Int.emod_eq_of_lt h0 (by omega)⟩
  · intro offset pts p hcs _
    rw [quantizePosition, hcs, hrcp0, mul_zero, mul_zero, mul_zero,
      quantizeUnsignedNorm_zero]

/-- Witness for C10 at a concrete degenerate cloud: a single point equal to
the offset on all axes has common scale 0 and quantizes to (0, 0, 0). -/
theorem C10_quantize_total_safe_witness :
    commonScale [mkPoint 1 1 1] ((1 : ℚ), (1 : ℚ), (1 : ℚ)) = 0 ∧
    mkPoint 1 1 1 ∈ [mkPoint 1 1 1] ∧
    quantizePosition ((1 : ℚ), (1 : ℚ), (1 : ℚ))
      (rcp (commonScale [mkPoint 1 1 1] ((1 : ℚ), (1 : ℚ), (1 : ℚ))))
      (mkPoint 1 1 1) = (0, 0, 0) := by
  have hcs : commonScale [mkPoint 1 1 1] ((1 : ℚ), (1 : ℚ), (1 : ℚ)) = 0 := by
    rw [commonScale, List.foldl_cons, List.foldl_nil]
    norm_num [mkPoint]
  have hmem : mkPoint 1 1 1 ∈ [mkPoint 1 1 1] := List.mem_cons_self _ _
  exact ⟨hcs, hmem,
    C10_quantize_total_safe.2.2 ((1 : ℚ), (1 : ℚ), (1 : ℚ))
      [mkPoint 1 1 1] (mkPoint 1 1 1) hcs hmem⟩

/-! ## Claim C1: the tile file codec

Modelled from the spec: the byte format of the tile files is produced by the
external bitcode crate (write_points_to_tile encodes the whole point vector,
read_points_from_tile reads the whole file and decodes the whole buffer,
main.rs). The encoding is modelled as the length-prefixed record format the
spec suggests for it; the decoder consumes the entire buffer and rejects
trailing bytes, as the whole-buffer bitcode decode of the source does. -/

/-- Self-delimiting encoding of a natural number: length-prefixed base-256
digits. -/
def encNat (n : Nat) : List Nat :=
  (Nat.digits 256 n).length :: Nat.digits 256 n

/-- Decode a natural number, returning the remaining bytes. -/
def decNat : List Nat → Option (Nat × List Nat)
  | [] => none
  | len :: rest =>
    if len ≤ rest.length then
      some (Nat.ofDigits 256 (rest.take len), rest.drop len)
    else none

theorem decNat_enc (n : Nat) (r : List Nat) :
    decNat (encNat n ++ r) = some (n, r) := by
  rw [encNat, List.cons_append, decNat,
    if_pos (by rw [List.length_append]; omega)]
  rw [List.take_left, List.drop_left, Nat.ofDigits_digits]

/-- Sign byte plus magnitude encoding of an integer. -/
def encInt (i : ℤ) : List Nat :=
  (if i < 0 then 1 else 0) :: encNat i.natAbs

/-- Decode an integer. -/
def decInt : List Nat → Option (ℤ × List Nat)
  | [] => none
  | s :: rest =>
    match decNat rest with
    | none => none
    | some (n, r) => some (if s = 1 then -(n : ℤ) else (n : ℤ), r)

theorem decInt_enc (i : ℤ) (r : List Nat) :
    decInt (encInt i ++ r) = some (i, r) := by
  by_cases hi : i < 0
  · simp only [encInt, hi, if_pos, if_true, List.cons_append, decInt,
      decNat_enc]
    simp only [if_pos rfl, Option.some.injEq, Prod.mk.injEq]
    exact ⟨by omega, trivial⟩
  · simp only [encInt, hi, if_neg, if_false, List.cons_append, decInt,
      decNat_enc]
    simp only [if_neg (by omega : ¬((0:Nat) = 1)), Option.some.injEq,
      Prod.mk.injEq]
    exact ⟨by omega, trivial⟩

/-- Numerator and denominator encoding of a rational. -/
def encRat (q : ℚ) : List Nat := encInt q.num ++ encNat q.den

/-- Decode a rational. -/
def decRat (bytes : List Nat) : Option (ℚ × List Nat) :=
  match decInt bytes with
  | none => none
  | some (n, r1) =>
    match decNat r1 with
    | none => none
    | some (d, r2) => some (mkRat n d, r2)

theorem decRat_enc (q : ℚ) (r : List Nat) :
    decRat (encRat q ++ r) = some (q, r) := by
  simp only [encRat, List.append_assoc, decRat, decInt_enc, decNat_enc,
    Rat.mkRat_self]

/-- Length-prefixed raw byte list (the classification string bytes). -/
def encBytesList (l : List Nat) : List Nat := encNat l.length ++ l

/-- Decode a raw byte list. -/
def decBytesList (bytes : List Nat) : Option (List Nat × List Nat) :=
  match decNat bytes with
  | none => none
  | some (n, r) =>
    if n ≤ r.length then some (r.take n, r.drop n) else none

theorem decBytesList_enc (l : List Nat) (r : List Nat) :
    decBytesList (encBytesList l ++ r) = some (l, r) := by
  simp only [encBytesList, List.append_assoc, decBytesList, decNat_enc]
  rw [if_pos (by rw [List.length_append]; omega)]
  rw [List.take_left, List.drop_left]

/-- Tag byte plus payload encoding of an optional field. -/
def encOption {α : Type} (enc : α → List Nat) : Option α → List Nat
  | none => [0]
  | some v => 1 :: enc v

/-- Decode an optional field. -/
def decOption {α : Type} (dec : List Nat → Option (α × List Nat)) :
    List Nat → Option (Option α × List Nat)
  | [] => none
  | t :: rest =>
    if t = 1 then
      match dec rest with
      | none => none
      | some (v, r) => some (some v, r)
    else some (none, rest)

theorem decOption_enc {α : Type} (enc : α → List Nat)
    (dec : List Nat → Option (α × List Nat))
    (hdec : ∀ v r, dec (enc v ++ r) = some (v, r)) (o : Option α)
    (r : List Nat) :
    decOption dec (encOption enc o ++ r) = some (o, r) := by
  cases o with
  | none => rw [encOption, List.cons_append, List.nil_append, decOption,
      if_neg (by omega)]
  | some v =>
    rw [encOption, List.cons_append, decOption, if_pos rfl, hdec]

/-- Record encoding of the three color channels. -/
def encColor (c : Color) : List Nat :=
  encNat c.r ++ encNat c.g ++ encNat c.b

/-- Decode the color channels. -/
def decColor (bytes : List Nat) : Option (Color × List Nat) :=
  match decNat bytes with
  | none => none
  | some rr =>
    match decNat rr.2 with
    | none => none
    | some gr =>
      match decNat gr.2 with
      | none => none
      | some br => some (Color.mk rr.1 gr.1 br.1, br.2)

theorem decColor_enc (c : Color) (r : List Nat) :
    decColor (encColor c ++ r) = some (c, r) := by
  simp only [encColor, List.append_assoc, decColor, decNat_enc]

/-- Record encoding of the eight optional attributes, in declaration
order. -/
def encAttributes (a : PointAttributes) : List Nat :=
  encOption encNat a.intensity ++
  encOption encNat a.returnNumber ++
  encOption encBytesList a.classificationBytes ++
  encOption encNat a.scannerChannel ++
  encOption encRat a.scanAngle ++
  encOption encNat a.userData ++
  encOption encNat a.pointSourceId ++
  encOption encRat a.gpsTime

/-- Decode the attribute set. -/
def decAttributes (bytes : List Nat) : Option (PointAttributes × List Nat) :=
  match decOption decNat bytes with
  | none => none
  | some intr =>
    match decOption decNat intr.2 with
    | none => none
    | some retr =>
      match decOption decBytesList retr.2 with
      | none => none
      | some clsr =>
        match decOption decNat clsr.2 with
        | none => none
        | some scr =>
          match decOption decRat scr.2 with
          | none => none
          | some angr =>
            match decOption decNat angr.2 with
            | none => none
            | some udr =>
              match decOption decNat udr.2 with
              | none => none
              | some psr =>
                match decOption decRat psr.2 with
                | none => none
                | some gtr =>
                  some (PointAttributes.mk intr.1 retr.1 clsr.1 scr.1
                    angr.1 udr.1 psr.1 gtr.1, gtr.2)

theorem decAttributes_enc (a : PointAttributes) (r : List Nat) :
    decAttributes (encAttributes a ++ r) = some (a, r) := by
  simp only [encAttributes, List.append_assoc, decAttributes,
    decOption_enc encNat decNat decNat_enc,
    decOption_enc encBytesList decBytesList decBytesList_enc,
    decOption_enc encRat decRat decRat_enc]

/-- Record encoding of one point: coordinates, color channels, then the
optional attributes. -/
def encPoint (p : Point) : List Nat :=
  encRat p.x ++ encRat p.y ++ encRat p.z ++
  encColor p.color ++ encAttributes p.attributes

/-- Decode one point record. -/
def decPoint (bytes : List Nat) : Option (Point × List Nat) :=
  match decRat bytes with
  | none => none
  | some xr =>
    match decRat xr.2 with
    | none => none
    | some yr =>
      match decRat yr.2 with
      | none => none
      | some zr =>
        match decColor zr.2 with
        | none => none
        | some cr =>
          match decAttributes cr.2 with
          | none => none
          | some ar => some (Point.mk xr.1 yr.1 zr.1 cr.1 ar.1, ar.2)

theorem decPoint_enc (p : Point) (r : List Nat) :
    decPoint (encPoint p ++ r) = some (p, r) := by
  simp only [encPoint, List.append_assoc, decPoint, decRat_enc,
    decColor_enc, decAttributes_enc]

/-- The tile file bytes of a point sequence (write_points_to_tile,
bitcode::encode of the whole vector). -/
def encodePoints (pts : List Point) : List Nat :=
  encNat pts.length ++ (pts.map encPoint).flatten

/-- Decode a fixed number of point records. -/
def decCount : Nat → List Nat → Option (List Point × List Nat)
  | 0, bytes => some ([], bytes)
  | n + 1, bytes =>
    match decPoint bytes with
    | none => none
    | some (p, r) =>
      match decCount n r with
      | none => none
      | some (pts, r2) => some (p :: pts, r2)

/-- The tile file decode (read_points_from_tile, bitcode::decode of the
whole buffer): trailing bytes are a decode error. -/
def decodePoints (bytes : List Nat) : Option (List Point) :=
  match decNat bytes with
  | none => none
  | some (n, r) =>
    match decCount n r with
    | none => none
    | some (pts, rem) => if rem = [] then some pts else none

theorem decCount_enc (pts : List Point) (r : List Nat) :
    decCount pts.length ((pts.map encPoint).flatten ++ r) = some (pts, r) := by
  induction pts generalizing r with
  | nil => rw [List.map_nil, List.flatten_nil, List.nil_append]; rfl
  | cons p rest ih =>
    rw [List.map_cons, List.flatten_cons, List.length_cons,
      List.append_assoc]
    simp only [decCount, decPoint_enc, ih]

/-- Round trip of the tile codec: decoding an encoded sequence returns it. -/
theorem decodePoints_encodePoints (pts : List Point) :
    decodePoints (encodePoints pts) = some pts := by
  have h := decCount_enc pts []
  rw [List.append_nil] at h
  simp [encodePoints, decodePoints, decNat_enc, h]

/-- Concatenated encodings never decode: the decoder stops after the first
sequence and rejects the trailing second file. -/
theorem decodePoints_concat (pts1 pts2 : List Point) :
    decodePoints (encodePoints pts1 ++ encodePoints pts2) = none := by
  have hne : encodePoints pts2 ≠ [] := by
    rw [encodePoints, encNat, List.cons_append]
    exact List.cons_ne_nil _ _
  conv_lhs => rw [encodePoints, List.append_assoc]
  simp [decodePoints, decNat_enc, decCount_enc, hne]

/-- C1, counterexample: the byte concatenation of two encoded one-point
files does not decode as the two-point concatenation (it fails to decode
at all). -/
theorem C1_tile_codec_counterexample :
    decodePoints (encodePoints [mkPoint 1 2 3] ++ encodePoints [mkPoint 4 5 6])
      ≠ some ([mkPoint 1 2 3] ++ [mkPoint 4 5 6]) := by
  rw [decodePoints_concat]
  exact fun h => Option.noConfusion h

/-- C1, amended: the tile codec round-trips (decode of encode of any point
sequence returns the sequence), but the byte concatenation of two encoded
files does not decode as the concatenation of the sequences: the
whole-buffer decoder rejects the trailing bytes of the second file, so
every concatenation of two encoded files fails to decode. -/
theorem C1_tile_codec_roundtrip_no_concat :
    (∀ pts : List Point, decodePoints (encodePoints pts) = some pts) ∧
    (∀ pts1 pts2 : List Point,
      decodePoints (encodePoints pts1 ++ encodePoints pts2) = none) :=
  ⟨decodePoints_encodePoints, decodePoints_concat⟩

end PointTiler
